import Mathlib

set_option maxRecDepth 100000

/-!
Verification development for the englint scanner (internal/scanner).

File contents are modelled as lists of byte values (`List Nat`, each < 256);
Go strings that can carry arbitrary bytes (file data, line excerpts) are
byte lists, while path-like and label-like strings that are always valid
ASCII are Lean `String`s.  Machine integers of the Go code are `Nat`s: no
arithmetic in the scanner can overflow (indices are bounded by the file
length, code points by 0x10FFFF).
-/

namespace Englint

/-! UTF-8 decoding, following unicode/utf8.DecodeRuneInString: the result is
the decoded code point together with the number of bytes consumed; an empty
input gives (RuneError, 0) and an invalid or incomplete encoding gives
(RuneError, 1).  Go's bit operations are written with / and % by powers of
two, which compute the same values. -/

def RuneError : Nat := 0xFFFD

def utf8Decode : List Nat → Nat × Nat
  | [] => (RuneError, 0)
  | b0 :: rest =>
    if b0 < 0x80 then (b0, 1)
    else if b0 < 0xC2 then (RuneError, 1)
    else if b0 ≤ 0xDF then
      match rest with
      | b1 :: _ =>
        if 0x80 ≤ b1 ∧ b1 ≤ 0xBF then ((b0 - 0xC0) * 64 + (b1 - 0x80), 2)
        else (RuneError, 1)
      | [] => (RuneError, 1)
    else if b0 ≤ 0xEF then
      match rest with
      | b1 :: b2 :: _ =>
        let lo := if b0 = 0xE0 then 0xA0 else 0x80
        let hi := if b0 = 0xED then 0x9F else 0xBF
        if lo ≤ b1 ∧ b1 ≤ hi ∧ 0x80 ≤ b2 ∧ b2 ≤ 0xBF then
          ((b0 - 0xE0) * 4096 + (b1 - 0x80) * 64 + (b2 - 0x80), 3)
        else (RuneError, 1)
      | _ => (RuneError, 1)
    else if b0 ≤ 0xF4 then
      match rest with
      | b1 :: b2 :: b3 :: _ =>
        let lo := if b0 = 0xF0 then 0x90 else 0x80
        let hi := if b0 = 0xF4 then 0x8F else 0xBF
        if lo ≤ b1 ∧ b1 ≤ hi ∧ 0x80 ≤ b2 ∧ b2 ≤ 0xBF ∧ 0x80 ≤ b3 ∧ b3 ≤ 0xBF then
          ((b0 - 0xF0) * 262144 + (b1 - 0x80) * 4096 + (b2 - 0x80) * 64 + (b3 - 0x80), 4)
        else (RuneError, 1)
      | _ => (RuneError, 1)
    else (RuneError, 1)

/-- A Unicode scalar value: the code points that a valid UTF-8 encoding can
denote (no surrogates, at most U+10FFFF). -/
def ValidRune (r : Nat) : Prop := r < 0xD800 ∨ (0xE000 ≤ r ∧ r ≤ 0x10FFFF)

instance : DecidablePred ValidRune := fun r => by unfold ValidRune; infer_instance

/-- UTF-8 encoding of one scalar value, as in unicode/utf8.AppendRune. -/
def utf8Encode (r : Nat) : List Nat :=
  if r < 0x80 then [r]
  else if r < 0x800 then [0xC0 + r / 64, 0x80 + r % 64]
  else if r < 0x10000 then [0xE0 + r / 4096, 0x80 + (r / 64) % 64, 0x80 + r % 64]
  else [0xF0 + r / 262144, 0x80 + (r / 4096) % 64, 0x80 + (r / 64) % 64, 0x80 + r % 64]

def utf8EncodeList (rs : List Nat) : List Nat := (rs.map utf8Encode).flatten

/-- unicode/utf8.RuneLen for the values that can reach it here (valid scalar
values and RuneError); Go returns -1 for surrogates and out-of-range values,
which never flow into it in the scanner. -/
def runeLen (r : Nat) : Nat :=
  if r < 0x80 then 1 else if r < 0x800 then 2 else if r < 0x10000 then 3 else 4

/-- Byte codes of an ASCII Lean string: equal to its UTF-8 bytes. -/
def strBytes (s : String) : List Nat := s.data.map Char.toNat

/-! Data model of internal/scanner (types Severity, Options, Finding,
SkippedFile, Summary, Result).  Severity is a string type in Go.  The
AllowRunes set (map[rune]struct literal) is a list of code points with
membership as the set test.  Excerpt is a byte list because Go slices a
string by bytes there; the other string fields are always valid ASCII or a
single encoded rune, kept as Lean strings. -/

def SeverityError : String := "error"
def SeverityWarning : String := "warning"

structure Options where
  Include : List String
  Exclude : List String
  AllowRunes : List Nat
  Severity : String
  IgnoreComments : Bool
  IgnoreStrings : Bool
  AllowFilePatterns : List String
deriving DecidableEq

structure Finding where
  Path : String
  Line : Nat
  Column : Nat
  Character : String
  CodePoint : String
  Category : String
  Severity : String
  Message : String
  Excerpt : List Nat
deriving DecidableEq

structure SkippedFile where
  Path : String
  Reason : String
deriving DecidableEq

structure Summary where
  FilesScanned : Nat
  FilesSkipped : Nat
  Findings : Nat
deriving DecidableEq

structure Result where
  Findings : List Finding
  ScannedFiles : List String
  SkippedFiles : List SkippedFile
  Summary : Summary
deriving DecidableEq

def normalizeOptions (opts : Options) : Options :=
  if opts.Severity ≠ SeverityWarning then { opts with Severity := SeverityError } else opts

/-- strings.Split(text, ny) for one newline byte 10: the list of lines, at
least one, without the separators. -/
def splitLinesGo : List Nat → List Nat → List (List Nat)
  | [], acc => [acc.reverse]
  | b :: tl, acc =>
    if b = 10 then acc.reverse :: splitLinesGo tl [] else splitLinesGo tl (b :: acc)

def splitLines (data : List Nat) : List (List Nat) := splitLinesGo data []

/-- strings.TrimRight(s, carriage-return): drop every trailing byte 13. -/
def trimCR (line : List Nat) : List Nat :=
  (line.reverse.dropWhile (fun b => b = 13)).reverse

/-- lineExcerpt from the source: the 1-based line, trailing CRs removed,
truncated at 160 bytes with a three-byte ellipsis appended when longer. -/
def lineExcerpt (lines : List (List Nat)) (line : Nat) : List Nat :=
  if line < 1 ∨ line > lines.length then []
  else
    let excerpt := trimCR (lines.getD (line - 1) [])
    if excerpt.length > 160 then excerpt.take 160 ++ [46, 46, 46] else excerpt

/-- isBinary from the source.  The Go code compares
float64(control)/float64(len(sample)) > 0.30 in binary floating point; for
every fraction control/len with len ≤ 8192 that comparison decides exactly
as the exact rational comparison control/len > 3/10 (the nearest such
rational to 3/10 other than 3/10 itself is about 1.2e-5 away, far beyond
the 1.7e-17 rounding slack of the float comparison, and 3/10 itself rounds
to the same double as the literal 0.30), so it is written as
10 * control > 3 * len. -/
def isBinary (data : List Nat) : Bool :=
  if data.length = 0 then false
  else
    let sample := data.take 8192
    if sample.contains 0 then true
    else
      let control := sample.countP (fun b =>
        ¬ (b = 10 ∨ b = 13 ∨ b = 9) ∧ (b < 0x20 ∨ b = 0x7f))
      10 * control > 3 * sample.length

structure syntaxRules where
  lineComments : List (List Nat)
  blockStart : List Nat
  blockEnd : List Nat
  strings : Bool
  backtick : Bool
deriving DecidableEq

/-- strings.ToLower restricted to its ASCII action; the extensions and base
names it is applied to in this development are ASCII. -/
def toLowerAscii (s : String) : String :=
  String.mk (s.data.map (fun c =>
    if 65 ≤ c.toNat ∧ c.toNat ≤ 90 then Char.ofNat (c.toNat + 32) else c))

/-- filepath.Ext: the suffix of the last path element from its final dot;
empty when the last element has no dot. -/
def goExtRev : List Char → List Char → List Char
  | [], _ => []
  | c :: tl, acc =>
    if c.toNat = 47 then []
    else if c.toNat = 46 then c :: acc
    else goExtRev tl (c :: acc)

def goExt (s : String) : String := String.mk (goExtRev s.data.reverse [])

/-- filepath.Base: last element of the path after dropping trailing slashes;
"." for the empty path, "/" for an all-slash path. -/
def goBase (s : String) : String :=
  if s.data = [] then "."
  else
    let cs := (s.data.reverse.dropWhile (fun c => c.toNat = 47)).reverse
    if cs = [] then "/"
    else String.mk ((cs.reverse.takeWhile (fun c => c.toNat ≠ 47)).reverse)

/-- syntaxForPath from the source: the per-extension declarative rule table. -/
def syntaxForPath (path : String) : syntaxRules :=
  let ext := toLowerAscii (goExt path)
  let base := toLowerAscii (goBase path)
  if ext ∈ [".go", ".js", ".jsx", ".ts", ".tsx", ".java", ".c", ".cc", ".cpp",
      ".h", ".hpp", ".cs", ".swift", ".kt", ".kts", ".rs", ".php"] then
    ⟨[strBytes "//"], strBytes "/*", strBytes "*/", true, true⟩
  else if ext ∈ [".py", ".rb", ".sh", ".bash", ".zsh", ".yaml", ".yml",
      ".toml", ".ini", ".conf", ".properties"] then
    ⟨[strBytes "#"], [], [], true, false⟩
  else if ext = ".sql" then ⟨[strBytes "--"], strBytes "/*", strBytes "*/", true, false⟩
  else if ext = ".lua" then ⟨[strBytes "--"], [], [], true, false⟩
  else if base = "dockerfile" ∨ (strBytes ".dockerfile").isSuffixOf (strBytes base) then
    ⟨[strBytes "#"], [], [], true, false⟩
  else ⟨[], [], [], false, false⟩

inductive ScanState where
  | stateCode
  | stateLineComment
  | stateBlockComment
  | stateSingleString
  | stateDoubleString
  | stateBacktickString
deriving DecidableEq

def shouldInspect (state : ScanState) (opts : Options) : Bool :=
  match state with
  | .stateLineComment | .stateBlockComment => ! opts.IgnoreComments
  | .stateSingleString | .stateDoubleString | .stateBacktickString => ! opts.IgnoreStrings
  | _ => true

def isAllowedRune (r : Nat) (allow : List Nat) : Bool :=
  if r = 10 ∨ r = 13 ∨ r = 9 then true
  else if 0x20 ≤ r ∧ r ≤ 0x7e then true
  else allow.contains r

/-! categoryForRune from the source classifies a code point through
unicode.In script tests in a fixed priority order.  The range tables below
are transcribed from Go's unicode package (stride-1 entries, stride>1
entries expanded); the CJK tables (Han, Hiragana, Katakana, Hangul), which
the claims below exercise, are complete over the BMP; the later, lower
priority tables are abridged to their principal ranges, and no theorem in
this development depends on the abridged portions. -/

def inRanges (r : Nat) (t : List (Nat × Nat)) : Bool :=
  t.any (fun p => p.1 ≤ r ∧ r ≤ p.2)

def tableHan : List (Nat × Nat) :=
  [(0x2E80, 0x2E99), (0x2E9B, 0x2EF3), (0x2F00, 0x2FD5), (0x3005, 0x3005),
   (0x3007, 0x3007), (0x3021, 0x3029), (0x3038, 0x303B), (0x3400, 0x4DBF),
   (0x4E00, 0x9FFF), (0xF900, 0xFA6D), (0xFA70, 0xFAD9),
   (0x16FE2, 0x16FE3), (0x16FF0, 0x16FF1), (0x20000, 0x2A6DF),
   (0x2A700, 0x2B739), (0x2B740, 0x2B81D), (0x2B820, 0x2CEA1),
   (0x2CEB0, 0x2EBE0), (0x2F800, 0x2FA1D), (0x30000, 0x3134A)]

def tableHiragana : List (Nat × Nat) :=
  [(0x3041, 0x3096), (0x309D, 0x309F), (0x1B001, 0x1B11F), (0x1B132, 0x1B132),
   (0x1B150, 0x1B152), (0x1F200, 0x1F200)]

def tableKatakana : List (Nat × Nat) :=
  [(0x30A1, 0x30FA), (0x30FD, 0x30FF), (0x31F0, 0x31FF), (0x32D0, 0x32FE),
   (0x3300, 0x3357), (0xFF66, 0xFF6F), (0xFF71, 0xFF9D), (0x1AFF0, 0x1AFF3),
   (0x1AFF5, 0x1AFFB), (0x1AFFD, 0x1AFFE), (0x1B000, 0x1B000),
   (0x1B120, 0x1B122), (0x1B155, 0x1B155), (0x1B164, 0x1B167)]

def tableHangul : List (Nat × Nat) :=
  [(0x1100, 0x11FF), (0x302E, 0x302F), (0x3131, 0x318E), (0x3200, 0x321E),
   (0x3260, 0x327E), (0xA960, 0xA97C), (0xAC00, 0xD7A3), (0xD7B0, 0xD7C6),
   (0xD7CB, 0xD7FB), (0xFFA0, 0xFFBE), (0xFFC2, 0xFFC7), (0xFFCA, 0xFFCF),
   (0xFFD2, 0xFFD7), (0xFFDA, 0xFFDC)]

def tableCyrillic : List (Nat × Nat) :=
  [(0x0400, 0x0484), (0x0487, 0x052F), (0x1C80, 0x1C88), (0x1D2B, 0x1D2B),
   (0x1D78, 0x1D78), (0x2DE0, 0x2DFF), (0xA640, 0xA69F), (0xFE2E, 0xFE2F)]

def tableArabic : List (Nat × Nat) :=
  [(0x0600, 0x0604), (0x0606, 0x060B), (0x060D, 0x061A), (0x061C, 0x061E),
   (0x0620, 0x063F), (0x0641, 0x064A), (0x0656, 0x066F), (0x0671, 0x06DC),
   (0x06DE, 0x06FF), (0x0750, 0x077F), (0x08A0, 0x08E1), (0x08E3, 0x08FF),
   (0xFB50, 0xFBC1), (0xFDF0, 0xFDFD), (0xFE70, 0xFE74), (0xFE76, 0xFEFC)]

def tableThai : List (Nat × Nat) := [(0x0E01, 0x0E3A), (0x0E40, 0x0E5B)]

def tableDevanagari : List (Nat × Nat) :=
  [(0x0900, 0x0950), (0x0953, 0x0963), (0x0966, 0x097F), (0xA8E0, 0xA8FF),
   (0x11B00, 0x11B09)]

def tableHebrew : List (Nat × Nat) :=
  [(0x0591, 0x05C7), (0x05D0, 0x05EA), (0x05EF, 0x05F4), (0xFB1D, 0xFB36),
   (0xFB38, 0xFB3C), (0xFB3E, 0xFB3E), (0xFB40, 0xFB41), (0xFB43, 0xFB44),
   (0xFB46, 0xFB4F)]

def tableGreek : List (Nat × Nat) :=
  [(0x0370, 0x0373), (0x0375, 0x0377), (0x037A, 0x037D), (0x037F, 0x037F),
   (0x0384, 0x0384), (0x0386, 0x0386), (0x0388, 0x038A), (0x038C, 0x038C),
   (0x038E, 0x03A1), (0x03A3, 0x03E1), (0x03F0, 0x03FF), (0x1D26, 0x1D2A),
   (0x1D5D, 0x1D61), (0x1D66, 0x1D6A), (0x1DBF, 0x1DBF), (0x1F00, 0x1F15),
   (0x1F18, 0x1F1D), (0x1F20, 0x1F45), (0x1F48, 0x1F4D), (0x1F50, 0x1F57),
   (0x1F59, 0x1F59), (0x1F5B, 0x1F5B), (0x1F5D, 0x1F5D), (0x1F5F, 0x1F7D),
   (0x1F80, 0x1FB4), (0x1FB6, 0x1FC4), (0x1FC6, 0x1FD3), (0x1FD6, 0x1FDB),
   (0x1FDD, 0x1FEF), (0x1FF2, 0x1FF4), (0x1FF6, 0x1FFE), (0x2126, 0x2126),
   (0xAB65, 0xAB65)]

def tableLatin : List (Nat × Nat) :=
  [(0x0041, 0x005A), (0x0061, 0x007A), (0x00AA, 0x00AA), (0x00BA, 0x00BA),
   (0x00C0, 0x00D6), (0x00D8, 0x00F6), (0x00F8, 0x02B8), (0x02E0, 0x02E4),
   (0x1D00, 0x1D25), (0x1D2C, 0x1D5C), (0x1D62, 0x1D65), (0x1D6B, 0x1D77),
   (0x1D79, 0x1DBE), (0x1E00, 0x1EFF), (0x2071, 0x2071), (0x207F, 0x207F),
   (0x2090, 0x209C), (0x212A, 0x212B), (0x2132, 0x2132), (0x214E, 0x214E),
   (0x2160, 0x2188), (0x2C60, 0x2C7F), (0xA722, 0xA787), (0xA78B, 0xA7CA),
   (0xA7D0, 0xA7D1), (0xA7D3, 0xA7D3), (0xA7D5, 0xA7D9), (0xA7F2, 0xA7FF),
   (0xAB30, 0xAB5A), (0xAB5C, 0xAB64), (0xAB66, 0xAB69), (0xFB00, 0xFB06),
   (0xFF21, 0xFF3A), (0xFF41, 0xFF5A)]

/-- Abridged union of the unicode.IsPunct and unicode.IsSymbol categories
outside ASCII, reached only when every script table above has missed. -/
def tablePunctSymbol : List (Nat × Nat) :=
  [(0x00A1, 0x00A9), (0x00AB, 0x00B9), (0x00BB, 0x00BF), (0x00D7, 0x00D7),
   (0x00F7, 0x00F7), (0x2010, 0x2027), (0x2030, 0x205E), (0x2190, 0x2BFF),
   (0x3001, 0x3004), (0x3008, 0x3020), (0x3030, 0x3037), (0xFE10, 0xFE19),
   (0xFE30, 0xFE52), (0x1F300, 0x1F9FF)]

def categoryForRune (r : Nat) : String :=
  if inRanges r tableHan ∨ inRanges r tableHiragana ∨ inRanges r tableKatakana
      ∨ inRanges r tableHangul then "CJK"
  else if inRanges r tableCyrillic then "Cyrillic"
  else if inRanges r tableArabic then "Arabic"
  else if inRanges r tableThai then "Thai"
  else if inRanges r tableDevanagari then "Devanagari"
  else if inRanges r tableHebrew then "Hebrew"
  else if inRanges r tableGreek then "Greek"
  else if inRanges r tableLatin then "Latin Extended"
  else if inRanges r tablePunctSymbol then "Unicode Symbol"
  else "Other Unicode"

/-- Uppercase hex digit characters of the low 24 bits, padded to at least
four digits: fmt.Sprintf of U+%04X for the code points that occur (all
below 2^24). -/
def hexChar (n : Nat) : Char :=
  if n < 10 then Char.ofNat (48 + n) else Char.ofNat (55 + n)

def hex4Chars (r : Nat) : List Char :=
  let ds := [r / 1048576 % 16, r / 65536 % 16, r / 4096 % 16, r / 256 % 16,
             r / 16 % 16, r % 16]
  let ds := if ds.head? = some 0 then ds.tail else ds
  let ds := if ds.head? = some 0 then ds.tail else ds
  ds.map hexChar

def codePointText (r : Nat) : String := "U+" ++ String.mk (hex4Chars r)

/-- fmt %q of a one-rune string, modelled as plain quoting: every rune it is
applied to below is printable, where %q adds only the quotes.  No claim
depends on the Message field. -/
def goQuoteRune (r : Nat) : String :=
  String.mk [Char.ofNat 34, Char.ofNat r, Char.ofNat 34]

/-! The content scanner.  The Go loop walks an index i over the text with
line, col, state and escaped as mutable locals; here the suffix text[i:] is
carried directly as a byte list, and line/col/state/escaped form a ScanPos.
One iteration of the loop body is scanStep; the loop is scanLoopF, run with
the remaining length as fuel, which is enough because every iteration
consumes at least one byte (proved below, claim C10). -/

structure ScanPos where
  line : Nat
  col : Nat
  state : ScanState
  escaped : Bool
deriving DecidableEq

/-- matchPrefix from the source: the first non-empty token that is a prefix
of the input, if any. -/
def matchTok (input : List Nat) : List (List Nat) → Option (List Nat)
  | [] => none
  | p :: ps =>
    if p = [] then matchTok input ps
    else if p.isPrefixOf input then some p else matchTok input ps

/-- advanceByToken from the source, iterating the token's runes the way a Go
range-over-string does: the token pointer moves by the decoded size while
the byte index i moves by utf8.RuneLen of the decoded rune (the two agree on
every valid encoding, in particular on the ASCII comment delimiters of
syntaxForPath).  Returns (bytes consumed from the text, line, col); fuel is
the token length, enough since each decode consumes at least one token
byte. -/
def advTokF : Nat → List Nat → Nat → Nat → Nat → Nat × Nat × Nat
  | 0, _, i, line, col => (i, line, col)
  | _ + 1, [], i, line, col => (i, line, col)
  | fuel + 1, tok@(_ :: _), i, line, col =>
    let rs := utf8Decode tok
    if rs.1 = 10 then advTokF fuel (tok.drop rs.2) (i + runeLen rs.1) (line + 1) 1
    else advTokF fuel (tok.drop rs.2) (i + runeLen rs.1) line (col + 1)

def advTok (tok : List Nat) (line col : Nat) : Nat × Nat × Nat :=
  advTokF tok.length tok 0 line col

/-- One Finding for an invalid UTF-8 byte, as constructed in scanContent. -/
def invalidFinding (path : String) (lines : List (List Nat)) (pos : ScanPos)
    (opts : Options) : Finding :=
  { Path := path, Line := pos.line, Column := pos.col, Character := "?",
    CodePoint := "invalid-utf8", Category := "Invalid UTF-8",
    Severity := opts.Severity,
    Message := "Detected invalid UTF-8 byte sequence",
    Excerpt := lineExcerpt lines pos.line }

/-- One Finding for a decoded rune, as constructed in scanContent. -/
def runeFinding (path : String) (lines : List (List Nat)) (pos : ScanPos)
    (opts : Options) (r : Nat) : Finding :=
  { Path := path, Line := pos.line, Column := pos.col,
    Character := String.mk [Char.ofNat r], CodePoint := codePointText r,
    Category := categoryForRune r, Severity := opts.Severity,
    Message := "Detected " ++ categoryForRune r ++ " character "
      ++ goQuoteRune r ++ " (" ++ codePointText r ++ ")",
    Excerpt := lineExcerpt lines pos.line }

/-- The decode-and-inspect tail of the loop body, reached when no delimiter
branch of the state switch fired. -/
def decodeStep (path : String) (lines : List (List Nat)) (opts : Options)
    (pos : ScanPos) (rest : List Nat) : List Nat × ScanPos × Option Finding :=
  let rs := utf8Decode rest
  if rs.1 = RuneError ∧ rs.2 = 1 then
    (rest.drop 1, ⟨pos.line, pos.col + 1, pos.state, false⟩,
     if shouldInspect pos.state opts then some (invalidFinding path lines pos opts)
     else none)
  else
    let f := if shouldInspect pos.state opts ∧ ¬ isAllowedRune rs.1 opts.AllowRunes
      then some (runeFinding path lines pos opts rs.1) else none
    if rs.1 = 10 then
      (rest.drop rs.2,
       ⟨pos.line + 1, 1,
        (if pos.state = .stateLineComment then .stateCode else pos.state), false⟩, f)
    else (rest.drop rs.2, ⟨pos.line, pos.col + 1, pos.state, false⟩, f)

/-- Delimiter-token consumption: advanceByToken followed by a state change
with the escape flag cleared, as in the stateCode/stateBlockComment
branches. -/
def consumeTok (tok : List Nat) (rest : List Nat) (pos : ScanPos)
    (next : ScanState) : List Nat × ScanPos × Option Finding :=
  let r := advTok tok pos.line pos.col
  (rest.drop r.1, ⟨r.2.1, r.2.2, next, false⟩, none)

/-- One iteration of the scanContent loop body. -/
def scanStep (path : String) (lines : List (List Nat)) (syn : syntaxRules)
    (opts : Options) (pos : ScanPos) (rest : List Nat) :
    List Nat × ScanPos × Option Finding :=
  match rest with
  | [] => ([], pos, none)
  | b :: tl =>
    match pos.state with
    | .stateCode =>
      if syn.blockStart ≠ [] ∧ syn.blockStart.isPrefixOf rest then
        consumeTok syn.blockStart rest pos .stateBlockComment
      else
        match matchTok rest syn.lineComments with
        | some tok => consumeTok tok rest pos .stateLineComment
        | none =>
          if syn.strings then
            if b = 39 then (tl, ⟨pos.line, pos.col + 1, .stateSingleString, false⟩, none)
            else if b = 34 then (tl, ⟨pos.line, pos.col + 1, .stateDoubleString, false⟩, none)
            else if b = 96 ∧ syn.backtick then
              (tl, ⟨pos.line, pos.col + 1, .stateBacktickString, false⟩, none)
            else decodeStep path lines opts pos rest
          else decodeStep path lines opts pos rest
    | .stateLineComment =>
      if b = 10 then (tl, ⟨pos.line + 1, 1, .stateCode, false⟩, none)
      else decodeStep path lines opts pos rest
    | .stateBlockComment =>
      if syn.blockEnd ≠ [] ∧ syn.blockEnd.isPrefixOf rest then
        consumeTok syn.blockEnd rest pos .stateCode
      else decodeStep path lines opts pos rest
    | .stateSingleString =>
      if ¬ pos.escaped then
        if b = 92 then (tl, ⟨pos.line, pos.col + 1, .stateSingleString, true⟩, none)
        else if b = 39 then (tl, ⟨pos.line, pos.col + 1, .stateCode, pos.escaped⟩, none)
        else decodeStep path lines opts pos rest
      else decodeStep path lines opts pos rest
    | .stateDoubleString =>
      if ¬ pos.escaped then
        if b = 92 then (tl, ⟨pos.line, pos.col + 1, .stateDoubleString, true⟩, none)
        else if b = 34 then (tl, ⟨pos.line, pos.col + 1, .stateCode, pos.escaped⟩, none)
        else decodeStep path lines opts pos rest
      else decodeStep path lines opts pos rest
    | .stateBacktickString =>
      if b = 96 then (tl, ⟨pos.line, pos.col + 1, .stateCode, pos.escaped⟩, none)
      else decodeStep path lines opts pos rest

def scanLoopF (path : String) (lines : List (List Nat)) (syn : syntaxRules)
    (opts : Options) : Nat → ScanPos → List Nat → List Finding
  | 0, _, _ => []
  | _ + 1, _, [] => []
  | fuel + 1, pos, rest@(_ :: _) =>
    let s := scanStep path lines syn opts pos rest
    s.2.2.toList ++ scanLoopF path lines syn opts fuel s.2.1 s.1

/-- scanContent from the source: scan the whole byte content of one file. -/
def scanContent (path : String) (data : List Nat) (syn : syntaxRules)
    (opts : Options) : List Finding :=
  scanLoopF path (splitLines data) syn opts data.length ⟨1, 1, .stateCode, false⟩ data

/-! An instrumented variant of the scanner that records, for every decoded
rune and every invalid byte, the Finding the source would build together
with the state it was met in and the decoded code point (none for an
invalid byte), with no inspection or allow-list filtering.  scanContent is
proved below to be the filter of this run by shouldInspect and
isAllowedRune; the instrumented scanner is an analysis device, not a
translation of new source code — its control flow is identical to
scanStep's. -/

structure Tagged where
  finding : Finding
  st : ScanState
  ev : Option Nat
deriving DecidableEq

def decodeStepAll (path : String) (lines : List (List Nat)) (opts : Options)
    (pos : ScanPos) (rest : List Nat) : List Nat × ScanPos × Option Tagged :=
  let rs := utf8Decode rest
  if rs.1 = RuneError ∧ rs.2 = 1 then
    (rest.drop 1, ⟨pos.line, pos.col + 1, pos.state, false⟩,
     some ⟨invalidFinding path lines pos opts, pos.state, none⟩)
  else
    let f := some (⟨runeFinding path lines pos opts rs.1, pos.state, some rs.1⟩ : Tagged)
    if rs.1 = 10 then
      (rest.drop rs.2,
       ⟨pos.line + 1, 1,
        (if pos.state = .stateLineComment then .stateCode else pos.state), false⟩, f)
    else (rest.drop rs.2, ⟨pos.line, pos.col + 1, pos.state, false⟩, f)

def consumeTokAll (tok : List Nat) (rest : List Nat) (pos : ScanPos)
    (next : ScanState) : List Nat × ScanPos × Option Tagged :=
  let r := advTok tok pos.line pos.col
  (rest.drop r.1, ⟨r.2.1, r.2.2, next, false⟩, none)

def scanStepAll (path : String) (lines : List (List Nat)) (syn : syntaxRules)
    (opts : Options) (pos : ScanPos) (rest : List Nat) :
    List Nat × ScanPos × Option Tagged :=
  match rest with
  | [] => ([], pos, none)
  | b :: tl =>
    match pos.state with
    | .stateCode =>
      if syn.blockStart ≠ [] ∧ syn.blockStart.isPrefixOf rest then
        consumeTokAll syn.blockStart rest pos .stateBlockComment
      else
        match matchTok rest syn.lineComments with
        | some tok => consumeTokAll tok rest pos .stateLineComment
        | none =>
          if syn.strings then
            if b = 39 then (tl, ⟨pos.line, pos.col + 1, .stateSingleString, false⟩, none)
            else if b = 34 then (tl, ⟨pos.line, pos.col + 1, .stateDoubleString, false⟩, none)
            else if b = 96 ∧ syn.backtick then
              (tl, ⟨pos.line, pos.col + 1, .stateBacktickString, false⟩, none)
            else decodeStepAll path lines opts pos rest
          else decodeStepAll path lines opts pos rest
    | .stateLineComment =>
      if b = 10 then (tl, ⟨pos.line + 1, 1, .stateCode, false⟩, none)
      else decodeStepAll path lines opts pos rest
    | .stateBlockComment =>
      if syn.blockEnd ≠ [] ∧ syn.blockEnd.isPrefixOf rest then
        consumeTokAll syn.blockEnd rest pos .stateCode
      else decodeStepAll path lines opts pos rest
    | .stateSingleString =>
      if ¬ pos.escaped then
        if b = 92 then (tl, ⟨pos.line, pos.col + 1, .stateSingleString, true⟩, none)
        else if b = 39 then (tl, ⟨pos.line, pos.col + 1, .stateCode, pos.escaped⟩, none)
        else decodeStepAll path lines opts pos rest
      else decodeStepAll path lines opts pos rest
    | .stateDoubleString =>
      if ¬ pos.escaped then
        if b = 92 then (tl, ⟨pos.line, pos.col + 1, .stateDoubleString, true⟩, none)
        else if b = 34 then (tl, ⟨pos.line, pos.col + 1, .stateCode, pos.escaped⟩, none)
        else decodeStepAll path lines opts pos rest
      else decodeStepAll path lines opts pos rest
    | .stateBacktickString =>
      if b = 96 then (tl, ⟨pos.line, pos.col + 1, .stateCode, pos.escaped⟩, none)
      else decodeStepAll path lines opts pos rest

def scanLoopAllF (path : String) (lines : List (List Nat)) (syn : syntaxRules)
    (opts : Options) : Nat → ScanPos → List Nat → List Tagged
  | 0, _, _ => []
  | _ + 1, _, [] => []
  | fuel + 1, pos, rest@(_ :: _) =>
    let s := scanStepAll path lines syn opts pos rest
    s.2.2.toList ++ scanLoopAllF path lines syn opts fuel s.2.1 s.1

/-- The instrumented scan of a whole file. -/
def scanAll (path : String) (data : List Nat) (syn : syntaxRules)
    (opts : Options) : List Tagged :=
  scanLoopAllF path (splitLines data) syn opts data.length ⟨1, 1, .stateCode, false⟩ data

/-- Whether the plain scanner would emit a tagged entry: invalid bytes pass
the allow list unconditionally, decoded runes must fail isAllowedRune, and
both are gated by shouldInspect. -/
def keepTag (opts : Options) (t : Tagged) : Bool :=
  shouldInspect t.st opts &&
    (match t.ev with
     | none => true
     | some r => ! isAllowedRune r opts.AllowRunes)

/-- The comment states of the state machine. -/
def isCommentState : ScanState → Bool
  | .stateLineComment | .stateBlockComment => true
  | _ => false

/-- The string states of the state machine. -/
def isStringState : ScanState → Bool
  | .stateSingleString | .stateDoubleString | .stateBacktickString => true
  | _ => false

/-! The orchestrator (Scan, walkDir, scanFile).  The glob matcher
match.Match lives in internal/match, whose implementation file is not part
of src/ (only its tests are), so it is threaded through as an explicit
function parameter; no claim below depends on its behaviour.  The abstract
path space is taken as already canonical: the working directory is fixed,
filepath.ToSlash is the identity on Unix paths, and filepath.Abs /
displayPath act as the identity, so the de-duplication key of a file is its
path string.  The filesystem is a lookup from root path to a file tree
node; directory entries carry their child nodes directly. -/

abbrev Matcher := String → String → Bool

/-- strings.TrimSpace restricted to its ASCII action. -/
def isSpaceByte (c : Char) : Bool :=
  c.toNat = 32 ∨ c.toNat = 9 ∨ c.toNat = 10 ∨ c.toNat = 13 ∨ c.toNat = 11 ∨ c.toNat = 12

def trimSpace (s : String) : String :=
  String.mk (((s.data.dropWhile isSpaceByte).reverse.dropWhile isSpaceByte).reverse)

/-- matches from the source: each non-blank pattern is tried against the
normalized path and its basename through the matcher, and a pattern ending
in the slash-star-star suffix also matches the subtree rooted at its
stem. -/
def matchesGlob (m : Matcher) (path : String) (patterns : List String) : Bool :=
  let norm := path
  let base := goBase norm
  patterns.any fun p0 =>
    let p := trimSpace p0
    if p = "" then false
    else if m p norm || m p base then true
    else if (strBytes "/**").isSuffixOf (strBytes p) then
      let pre := String.mk (p.data.take (p.data.length - 3))
      norm = pre || (strBytes (pre ++ "/")).isPrefixOf (strBytes norm)
    else false

def isIncluded (m : Matcher) (path : String) (inc : List String) : Bool :=
  if inc = [] then true else matchesGlob m path inc

def isExcluded (m : Matcher) (path : String) (exc : List String) : Bool :=
  if exc = [] then false
  else if matchesGlob m path exc then true
  else matchesGlob m (path ++ "/") exc

def isAllowedFile (m : Matcher) (path : String) (patterns : List String) : Bool :=
  if patterns = [] then false else matchesGlob m path patterns

mutual
inductive FNode where
  | file : List Nat → FNode
  | unreadableFile : FNode
  | dir : FEntries → FNode
  | unreadableDir : FNode

inductive FEntries where
  | nil : FEntries
  | cons : String → FNode → FEntries → FEntries
end

def emptyResult : Result := ⟨[], [], [], ⟨0, 0, 0⟩⟩

/-- scanFile from the source, for one file whose read either yields bytes or
fails; the state is the visited set paired with the accumulating Result. -/
def scanFileNode (m : Matcher) (opts : Options) (path : String)
    (content : Option (List Nat)) (st : List String × Result) :
    Except String (List String × Result) :=
  let visited := st.1
  let res := st.2
  if path ∈ visited then .ok st
  else
    let visited := path :: visited
    let display := path
    if ¬ isIncluded m display opts.Include then .ok (visited, res)
    else if isExcluded m display opts.Exclude then .ok (visited, res)
    else if isAllowedFile m display opts.AllowFilePatterns then
      .ok (visited, { res with
        SkippedFiles := res.SkippedFiles ++ [⟨display, "allowed by file pattern"⟩] })
    else
      match content with
      | none => .error ("read " ++ display)
      | some data =>
        if isBinary data then
          .ok (visited, { res with
            SkippedFiles := res.SkippedFiles ++ [⟨display, "binary file"⟩] })
        else
          .ok (visited, { res with
            ScannedFiles := res.ScannedFiles ++ [display],
            Findings := res.Findings
              ++ scanContent display data (syntaxForPath display) opts })

/-! walkDir from the source: filepath.WalkDir visits a directory before its
entries; an excluded directory (display other than the dot path) is pruned
with SkipDir before any attempt to read it, an unreadable one surfaces its
ReadDir error, files are scanned in entry order, and the first error aborts
the walk. -/

mutual
def walkNode (m : Matcher) (opts : Options) (path : String) (node : FNode)
    (st : List String × Result) : Except String (List String × Result) :=
  match node with
  | .file c => scanFileNode m opts path (some c) st
  | .unreadableFile => scanFileNode m opts path none st
  | .dir es =>
    if path ≠ "." ∧ isExcluded m path opts.Exclude then .ok st
    else walkEntries m opts path es st
  | .unreadableDir =>
    if path ≠ "." ∧ isExcluded m path opts.Exclude then .ok st
    else .error ("walk " ++ path)

def walkEntries (m : Matcher) (opts : Options) (path : String)
    (es : FEntries) (st : List String × Result) :
    Except String (List String × Result) :=
  match es with
  | .nil => .ok st
  | .cons name node rest =>
    match walkNode m opts (path ++ "/" ++ name) node st with
    | .error e => .error e
    | .ok st1 => walkEntries m opts path rest st1
end

/-- The per-root loop of Scan: stat each root (a missing root aborts), walk
directories, scan files. -/
def scanRoots (m : Matcher) (opts : Options) (fs : String → Option FNode) :
    List String → (List String × Result) → Except String (List String × Result)
  | [], st => .ok st
  | p :: ps, st =>
    match fs p with
    | none => .error ("stat " ++ p)
    | some node =>
      let step :=
        match node with
        | .dir _ => walkNode m opts p node st
        | .unreadableDir => walkNode m opts p node st
        | .file c => scanFileNode m opts p (some c) st
        | .unreadableFile => scanFileNode m opts p none st
      match step with
      | .error e => .error e
      | .ok st1 => scanRoots m opts fs ps st1

/-- Path cleaning at the top of Scan: blank entries are dropped and an empty
final list defaults to the current directory. -/
def cleanRoots (paths : List String) : List String :=
  let paths := if paths = [] then ["."] else paths
  let cleaned := (paths.map trimSpace).filter (fun p => p ≠ "")
  if cleaned = [] then ["."] else cleaned

/-! The final sorts.  Go byte-wise string comparison coincides with the
code-point lexicographic comparison used here, because UTF-8 encoding is
order-preserving; sort.Slice is an unstable comparison sort, but every key
list it is applied to here is duplicate-free, so any comparison sort
produces the same, unique sorted arrangement — insertion sort is used as
the model. -/

def findingLess (a b : Finding) : Bool :=
  if strBytes a.Path ≠ strBytes b.Path then decide (strBytes a.Path < strBytes b.Path)
  else if a.Line ≠ b.Line then decide (a.Line < b.Line)
  else if a.Column ≠ b.Column then decide (a.Column < b.Column)
  else decide (strBytes a.CodePoint < strBytes b.CodePoint)

def findingLE (a b : Finding) : Prop := findingLess b a = false

instance : DecidableRel findingLE := fun a b => by unfold findingLE; infer_instance

def sortFindings (l : List Finding) : List Finding := List.insertionSort findingLE l

def stringLE (a b : String) : Prop := decide (strBytes b < strBytes a) = false

instance : DecidableRel stringLE := fun a b => by unfold stringLE; infer_instance

def sortStrings (l : List String) : List String := List.insertionSort stringLE l

def skippedLE (a b : SkippedFile) : Prop :=
  decide (strBytes b.Path < strBytes a.Path) = false

instance : DecidableRel skippedLE := fun a b => by unfold skippedLE; infer_instance

def sortSkipped (l : List SkippedFile) : List SkippedFile :=
  List.insertionSort skippedLE l

/-- Scan from the source, over the abstract filesystem: normalize options,
clean the root list, process every root through the shared visited set, and
on success sort all three collections and fill in the Summary; any error
yields the zero Result together with the error, exactly as the Go code
returns Result and err. -/
def ScanGo (m : Matcher) (roots : List String) (fs : String → Option FNode)
    (opts0 : Options) : Result × Option String :=
  let opts := normalizeOptions opts0
  match scanRoots m opts fs (cleanRoots roots) ([], emptyResult) with
  | .error e => (emptyResult, some e)
  | .ok st =>
    let res := st.2
    let scanned := sortStrings res.ScannedFiles
    let skipped := sortSkipped res.SkippedFiles
    let findings := sortFindings res.Findings
    (⟨findings, scanned, skipped, ⟨scanned.length, skipped.length, findings.length⟩⟩,
     none)

/-! Auxiliary predicates used by the theorem statements. -/

/-- A token consisting of ASCII bytes only. -/
def asciiTok (t : List Nat) : Bool := t.all (fun b => b < 0x80)

/-- All delimiter tokens of a rule set are ASCII; true of every rule set
syntaxForPath produces. -/
def asciiSyntax (syn : syntaxRules) : Bool :=
  asciiTok syn.blockStart && asciiTok syn.blockEnd && syn.lineComments.all asciiTok

/-- Whether the loop body falls through its state switch to the decode tail:
no delimiter branch fires for the current state and upcoming bytes. -/
def reachesDecode (syn : syntaxRules) (pos : ScanPos) (rest : List Nat) : Bool :=
  match rest with
  | [] => false
  | b :: _ =>
    match pos.state with
    | .stateCode =>
      ¬ (syn.blockStart ≠ [] ∧ syn.blockStart.isPrefixOf rest)
      ∧ matchTok rest syn.lineComments = none
      ∧ ¬ (syn.strings ∧ (b = 39 ∨ b = 34 ∨ (b = 96 ∧ syn.backtick)))
    | .stateLineComment => b ≠ 10
    | .stateBlockComment => ¬ (syn.blockEnd ≠ [] ∧ syn.blockEnd.isPrefixOf rest)
    | .stateSingleString => ¬ (¬ pos.escaped ∧ (b = 92 ∨ b = 39))
    | .stateDoubleString => ¬ (¬ pos.escaped ∧ (b = 92 ∨ b = 34))
    | .stateBacktickString => b ≠ 96

/-- The sort key of a Finding: (path, line, column, codePoint) compared
lexicographically in that tie-break order. -/
def findingKey (f : Finding) : Lex (List Nat × Lex (Nat × Lex (Nat × List Nat))) :=
  toLex (strBytes f.Path, toLex (f.Line, toLex (f.Column, strBytes f.CodePoint)))

/-! Concrete data used by witnesses and counterexamples. -/

/-- The bytes of the Go line `var _ = "こんにちは"` (no trailing newline), the
file content claim C1 fixes. -/
def sampleGoContent : List Nat :=
  [118, 97, 114, 32, 95, 32, 61, 32, 34,
   0xE3, 0x81, 0x93, 0xE3, 0x82, 0x93, 0xE3, 0x81, 0xAB,
   0xE3, 0x81, 0xA1, 0xE3, 0x81, 0xAF, 34]

/-- Default Options: severity error, empty allow list, no ignore flags, no
patterns. -/
def defaultOptions : Options := ⟨[], [], [], "error", false, false, []⟩

/-- A matcher that never matches; the pattern lists of defaultOptions are
empty, so no matcher is ever consulted under it. -/
def matcherNone : Matcher := fun _ _ => false

/-- A filesystem holding only sample.go with the C1 content. -/
def fsSample : String → Option FNode := fun p =>
  if p = "sample.go" then some (.file sampleGoContent) else none

/-- A filesystem with no entries (every root stat fails). -/
def fsNone : String → Option FNode := fun _ => none

/-- A filesystem holding one unreadable regular file. -/
def fsUnreadable : String → Option FNode := fun p =>
  if p = "secret.go" then some .unreadableFile else none

/-- A filesystem holding one unreadable directory. -/
def fsBlockedDir : String → Option FNode := fun p =>
  if p = "blocked" then some .unreadableDir else none

/-- A filesystem holding one binary file (leading NUL byte). -/
def fsBin : String → Option FNode := fun p =>
  if p = "b.bin" then some (.file [0, 1]) else none

/-- A 173-byte single-line content: 170 letters a then one あ; its only
finding sits on a line longer than 160 bytes. -/
def longLineContent : List Nat := List.replicate 170 97 ++ [0xE3, 0x81, 0x82]

/-- Content with one offending rune in code, one in a line comment and one
in a double-quoted string: the three lines `あ`, `// い`, `"う"`. -/
def mixedContent : List Nat :=
  [0xE3, 0x81, 0x82, 10,
   47, 47, 32, 0xE3, 0x81, 0x84, 10,
   34, 0xE3, 0x81, 0x86, 34, 10]

/-- The invalid-byte resync content of C4: an invalid 0xFF byte, then `ab`,
a newline, あ and a final newline. -/
def resyncContent : List Nat := [0xFF, 97, 98, 10, 0xE3, 0x81, 0x82, 10]

/-- Options with あ allow-listed, used by the C7 witness. -/
def allowOpts : Options := ⟨[], [], [0x3042], "error", false, false, []⟩

/-- A placeholder Tagged value for list indexing in witnesses. -/
def dummyTag : Tagged := ⟨⟨"", 0, 0, "", "", "", "", "", []⟩, .stateCode, none⟩

/-- The instrumented scan of mixedContent restricted to its disallowed
runes: one tag per offending character, in code, comment and string
context. -/
def mixedTags : List Tagged :=
  (scanAll "a.go" mixedContent (syntaxForPath "a.go") defaultOptions).filter
    (keepTag defaultOptions)

/-! Progress of the scanner: every loop iteration consumes at least one
byte, so running the loop with the remaining length as fuel computes the
Go loop exactly; the instrumented scan relates to the plain one by a
filter. -/


theorem runeLen_pos (r : Nat) : 1 ≤ runeLen r := by
  unfold runeLen
  repeat' split
  all_goals omega

theorem utf8Decode_snd_pos (b : Nat) (tl : List Nat) : 1 ≤ (utf8Decode (b :: tl)).2 := by
  simp only [utf8Decode]
  repeat' split
  all_goals simp

theorem advTokF_fst_le (fuel : Nat) : ∀ tok i line col, i ≤ (advTokF fuel tok i line col).1 := by
  induction fuel with
  | zero => intro tok i line col; simp [advTokF]
  | succ n ih =>
    intro tok i line col
    cases tok with
    | nil => simp [advTokF]
    | cons b tl =>
      simp only [advTokF]
      split
      · exact le_trans (Nat.le_add_right _ _) (ih _ _ _ _)
      · exact le_trans (Nat.le_add_right _ _) (ih _ _ _ _)

theorem decodeStep_shrinks (path : String) (lines : List (List Nat))
    (opts : Options) (pos : ScanPos) (b : Nat) (tl : List Nat) :
    (decodeStep path lines opts pos (b :: tl)).1.length < (b :: tl).length := by
  have h := utf8Decode_snd_pos b tl
  simp only [decodeStep]
  repeat' split
  all_goals (simp only [List.length_drop, List.length_cons]; omega)

theorem matchTok_ne_nil {input tok : List Nat} :
    ∀ {ps : List (List Nat)}, matchTok input ps = some tok → tok ≠ []
  | [], h => by simp [matchTok] at h
  | p :: ps, h => by
    by_cases hp : p = []
    · exact matchTok_ne_nil (by simpa [matchTok, hp] using h)
    · by_cases hpre : p.isPrefixOf input
      · simp only [matchTok, hp, if_false, hpre, if_true] at h
        cases h; exact hp
      · exact matchTok_ne_nil (by simpa [matchTok, hp, hpre] using h)

theorem advTok_fst_pos (tok : List Nat) (h : tok ≠ []) (line col : Nat) :
    1 ≤ (advTok tok line col).1 := by
  cases tok with
  | nil => exact absurd rfl h
  | cons b tl =>
    unfold advTok
    simp only [advTokF, List.length_cons]
    have h1 := runeLen_pos (utf8Decode (b :: tl)).1
    split
    · exact le_trans (by omega) (advTokF_fst_le _ _ _ _ _)
    · exact le_trans (by omega) (advTokF_fst_le _ _ _ _ _)

theorem consumeTok_shrinks (tok : List Nat) (h : tok ≠ []) (b : Nat)
    (tl : List Nat) (pos : ScanPos) (next : ScanState) :
    (consumeTok tok (b :: tl) pos next).1.length < (b :: tl).length := by
  simp only [consumeTok]
  have := advTok_fst_pos tok h pos.line pos.col
  simp only [List.length_drop, List.length_cons]
  omega

theorem scanStep_shrinks (path : String) (lines : List (List Nat))
    (syn : syntaxRules) (opts : Options) (pos : ScanPos) (b : Nat) (tl : List Nat) :
    (scanStep path lines syn opts pos (b :: tl)).1.length < (b :: tl).length := by
  simp only [scanStep]
  cases hst : pos.state <;> simp only []
  case stateCode =>
    split
    · next hbs => exact consumeTok_shrinks _ hbs.1 _ _ _ _
    · split
      · next tok htok => exact consumeTok_shrinks _ (matchTok_ne_nil htok) _ _ _ _
      · repeat' split
        all_goals first
          | (simp only [List.length_cons]; omega)
          | exact decodeStep_shrinks _ _ _ _ _ _
  case stateLineComment =>
    split
    · simp only [List.length_cons]; omega
    · exact decodeStep_shrinks _ _ _ _ _ _
  case stateBlockComment =>
    split
    · next hbe => exact consumeTok_shrinks _ hbe.1 _ _ _ _
    · exact decodeStep_shrinks _ _ _ _ _ _
  case stateSingleString =>
    repeat' split
    all_goals first
      | (simp only [List.length_cons]; omega)
      | exact decodeStep_shrinks _ _ _ _ _ _
  case stateDoubleString =>
    repeat' split
    all_goals first
      | (simp only [List.length_cons]; omega)
      | exact decodeStep_shrinks _ _ _ _ _ _
  case stateBacktickString =>
    split
    · simp only [List.length_cons]; omega
    · exact decodeStep_shrinks _ _ _ _ _ _

theorem scanLoopF_nil (path : String) (lines : List (List Nat))
    (syn : syntaxRules) (opts : Options) (fuel : Nat) (pos : ScanPos) :
    scanLoopF path lines syn opts fuel pos [] = [] := by
  cases fuel <;> rfl

theorem scanLoopF_fuel (path : String) (lines : List (List Nat))
    (syn : syntaxRules) (opts : Options) :
    ∀ f1 f2 pos (rest : List Nat), rest.length ≤ f1 → rest.length ≤ f2 →
      scanLoopF path lines syn opts f1 pos rest = scanLoopF path lines syn opts f2 pos rest := by
  intro f1
  induction f1 with
  | zero =>
    intro f2 pos rest h1 _
    have : rest = [] := List.length_eq_zero.mp (Nat.le_zero.mp h1)
    subst this
    rw [scanLoopF_nil, scanLoopF_nil]
  | succ n ih =>
    intro f2 pos rest h1 h2
    cases rest with
    | nil => rw [scanLoopF_nil, scanLoopF_nil]
    | cons b tl =>
      cases f2 with
      | zero => simp at h2
      | succ mfuel =>
        have hs := scanStep_shrinks path lines syn opts pos b tl
        simp only [scanLoopF]
        have hrec := ih mfuel (scanStep path lines syn opts pos (b :: tl)).2.1
          (scanStep path lines syn opts pos (b :: tl)).1
          (by simp only [List.length_cons] at h1 hs ⊢; omega)
          (by simp only [List.length_cons] at h2 hs ⊢; omega)
        rw [hrec]

theorem decodeStep_eq_all (path : String) (lines : List (List Nat))
    (opts : Options) (pos : ScanPos) (rest : List Nat) :
    decodeStep path lines opts pos rest =
      ((decodeStepAll path lines opts pos rest).1,
       (decodeStepAll path lines opts pos rest).2.1,
       (decodeStepAll path lines opts pos rest).2.2.bind
         (fun t => if keepTag opts t then some t.finding else none)) := by
  simp only [decodeStep, decodeStepAll, keepTag]
  by_cases h1 : shouldInspect pos.state opts <;>
    by_cases h2 : isAllowedRune (utf8Decode rest).1 opts.AllowRunes <;>
    repeat' split <;> simp_all

theorem scanStep_eq_all (path : String) (lines : List (List Nat))
    (syn : syntaxRules) (opts : Options) (pos : ScanPos) (rest : List Nat) :
    scanStep path lines syn opts pos rest =
      ((scanStepAll path lines syn opts pos rest).1,
       (scanStepAll path lines syn opts pos rest).2.1,
       (scanStepAll path lines syn opts pos rest).2.2.bind
         (fun t => if keepTag opts t then some t.finding else none)) := by
  cases rest with
  | nil => rfl
  | cons b tl =>
    simp only [scanStep, scanStepAll]
    cases pos.state <;> simp only []
    case stateCode =>
      split
      · simp [consumeTok, consumeTokAll]
      · split
        · simp [consumeTok, consumeTokAll]
        · repeat' split
          all_goals first
            | simp
            | exact decodeStep_eq_all _ _ _ _ _
    case stateLineComment =>
      split
      · simp
      · exact decodeStep_eq_all _ _ _ _ _
    case stateBlockComment =>
      split
      · simp [consumeTok, consumeTokAll]
      · exact decodeStep_eq_all _ _ _ _ _
    case stateSingleString =>
      repeat' split
      all_goals first
        | simp
        | exact decodeStep_eq_all _ _ _ _ _
    case stateDoubleString =>
      repeat' split
      all_goals first
        | simp
        | exact decodeStep_eq_all _ _ _ _ _
    case stateBacktickString =>
      split
      · simp
      · exact decodeStep_eq_all _ _ _ _ _

theorem scanLoopAllF_nil (path : String) (lines : List (List Nat))
    (syn : syntaxRules) (opts : Options) (fuel : Nat) (pos : ScanPos) :
    scanLoopAllF path lines syn opts fuel pos [] = [] := by
  cases fuel <;> rfl

theorem scanLoopF_eq_all (path : String) (lines : List (List Nat))
    (syn : syntaxRules) (opts : Options) :
    ∀ fuel pos (rest : List Nat),
      scanLoopF path lines syn opts fuel pos rest =
        ((scanLoopAllF path lines syn opts fuel pos rest).filter (keepTag opts)).map
          (fun t => t.finding) := by
  intro fuel
  induction fuel with
  | zero => intro pos rest; rfl
  | succ n ih =>
    intro pos rest
    cases rest with
    | nil => rfl
    | cons b tl =>
      simp only [scanLoopF, scanLoopAllF]
      rw [scanStep_eq_all]
      rw [ih]
      simp only [List.filter_append, List.map_append]
      cases htag : (scanStepAll path lines syn opts pos (b :: tl)).2.2 with
      | none => simp
      | some t =>
        by_cases hk : keepTag opts t <;> simp [hk]

theorem invalidFinding_opts (path : String) (lines : List (List Nat)) (pos : ScanPos)
    (opts opts2 : Options) (h : opts.Severity = opts2.Severity) :
    invalidFinding path lines pos opts = invalidFinding path lines pos opts2 := by
  simp [invalidFinding, h]

theorem runeFinding_opts (path : String) (lines : List (List Nat)) (pos : ScanPos)
    (opts opts2 : Options) (r : Nat) (h : opts.Severity = opts2.Severity) :
    runeFinding path lines pos opts r = runeFinding path lines pos opts2 r := by
  simp [runeFinding, h]

theorem scanStepAll_opts (path : String) (lines : List (List Nat))
    (syn : syntaxRules) (opts opts2 : Options) (h : opts.Severity = opts2.Severity)
    (pos : ScanPos) (rest : List Nat) :
    scanStepAll path lines syn opts pos rest = scanStepAll path lines syn opts2 pos rest := by
  cases rest with
  | nil => rfl
  | cons b tl =>
    simp only [scanStepAll]
    have hd : decodeStepAll path lines opts pos (b :: tl)
        = decodeStepAll path lines opts2 pos (b :: tl) := by
      simp only [decodeStepAll, invalidFinding_opts path lines pos opts opts2 h,
        runeFinding_opts path lines pos opts opts2 _ h]
    cases pos.state <;> simp only [] <;> repeat' split
    all_goals first | rfl | exact hd

theorem scanLoopAllF_opts (path : String) (lines : List (List Nat))
    (syn : syntaxRules) (opts opts2 : Options) (h : opts.Severity = opts2.Severity) :
    ∀ fuel pos (rest : List Nat),
      scanLoopAllF path lines syn opts fuel pos rest
        = scanLoopAllF path lines syn opts2 fuel pos rest := by
  intro fuel
  induction fuel with
  | zero => intro pos rest; rfl
  | succ n ih =>
    intro pos rest
    cases rest with
    | nil => rfl
    | cons b tl =>
      simp only [scanLoopAllF]
      rw [scanStepAll_opts path lines syn opts opts2 h, ih]

theorem scanAll_opts (path : String) (data : List Nat) (syn : syntaxRules)
    (opts opts2 : Options) (h : opts.Severity = opts2.Severity) :
    scanAll path data syn opts = scanAll path data syn opts2 := by
  unfold scanAll
  exact scanLoopAllF_opts path (splitLines data) syn opts opts2 h _ _ _

theorem scanContent_eq_all (path : String) (data : List Nat) (syn : syntaxRules)
    (opts : Options) :
    scanContent path data syn opts
      = ((scanAll path data syn opts).filter (keepTag opts)).map (fun t => t.finding) := by
  unfold scanContent scanAll
  exact scanLoopF_eq_all path (splitLines data) syn opts _ _ _

theorem keepTag_ignoreComments (opts : Options) (hc : opts.IgnoreComments = false)
    (hs : opts.IgnoreStrings = false) (t : Tagged) :
    keepTag { opts with IgnoreComments := true } t
      = (! isCommentState t.st && keepTag opts t) := by
  rcases t with ⟨f, st, ev⟩
  cases st <;> simp [keepTag, shouldInspect, isCommentState, hc, hs]

theorem keepTag_ignoreStrings (opts : Options) (hc : opts.IgnoreComments = false)
    (hs : opts.IgnoreStrings = false) (t : Tagged) :
    keepTag { opts with IgnoreStrings := true } t
      = (! isStringState t.st && keepTag opts t) := by
  rcases t with ⟨f, st, ev⟩
  cases st <;> simp [keepTag, shouldInspect, isStringState, hc, hs]

theorem keepTag_ignoreBoth (opts : Options) (hc : opts.IgnoreComments = false)
    (hs : opts.IgnoreStrings = false) (t : Tagged) :
    keepTag { opts with IgnoreComments := true, IgnoreStrings := true } t
      = ((! isCommentState t.st && ! isStringState t.st) && keepTag opts t) := by
  rcases t with ⟨f, st, ev⟩
  cases st <;> simp [keepTag, shouldInspect, isCommentState, isStringState, hc, hs]

theorem stringState_of_commentState {st : ScanState} (h : isCommentState st = true) :
    isStringState st = false := by
  cases st <;> simp_all [isCommentState, isStringState]

theorem commentState_of_stringState {st : ScanState} (h : isStringState st = true) :
    isCommentState st = false := by
  cases st <;> simp_all [isCommentState, isStringState]

/-- A state that is neither a comment state nor a string state is the
code state: the six scanner states are exhaustively code, comment or
string. -/
theorem codeState_iff {st : ScanState} :
    (! isCommentState st && ! isStringState st) = decide (st = ScanState.stateCode) := by
  cases st <;> rfl

/-- C3: for file content whose disallowed characters (as witnessed by the
instrumented scan) are exactly one met in code context, one in a comment
and one in a string literal, occurring in any order: ignoreComments
removes exactly the unique comment finding, ignoreStrings removes exactly
the unique string finding, and both flags together leave exactly the one
code finding, each time preserving the other findings in order. -/
theorem C3_context_suppression
    (path : String) (data : List Nat) (syn : syntaxRules) (opts : Options)
    (hc : opts.IgnoreComments = false) (hs : opts.IgnoreStrings = false)
    (l : List Tagged)
    (hbase : (scanAll path data syn opts).filter (keepTag opts) = l)
    (hlen : l.length = 3)
    (hcode : l.countP (fun t => decide (t.st = ScanState.stateCode)) = 1)
    (hcomm : l.countP (fun t => isCommentState t.st) = 1)
    (hstr : l.countP (fun t => isStringState t.st) = 1) :
    scanContent path data syn opts = l.map (fun t => t.finding)
    ∧ scanContent path data syn { opts with IgnoreComments := true }
        = (l.filter (fun t => ! isCommentState t.st)).map (fun t => t.finding)
    ∧ (l.filter (fun t => ! isCommentState t.st)).length = 2
    ∧ scanContent path data syn { opts with IgnoreStrings := true }
        = (l.filter (fun t => ! isStringState t.st)).map (fun t => t.finding)
    ∧ (l.filter (fun t => ! isStringState t.st)).length = 2
    ∧ scanContent path data syn
        { opts with IgnoreComments := true, IgnoreStrings := true }
        = (l.filter (fun t => decide (t.st = ScanState.stateCode))).map (fun t => t.finding)
    ∧ (l.filter (fun t => decide (t.st = ScanState.stateCode))).length = 1 := by
  have hsev1 : opts.Severity = ({ opts with IgnoreComments := true } : Options).Severity := rfl
  have hsev2 : opts.Severity = ({ opts with IgnoreStrings := true } : Options).Severity := rfl
  have hsev3 : opts.Severity
      = ({ opts with IgnoreComments := true, IgnoreStrings := true } : Options).Severity := rfl
  refine ⟨?_, ?_, ?_, ?_, ?_, ?_, ?_⟩
  · rw [scanContent_eq_all, hbase]
  · rw [scanContent_eq_all, ← scanAll_opts path data syn opts _ hsev1]
    have heq : (scanAll path data syn opts).filter
        (keepTag { opts with IgnoreComments := true })
        = ((scanAll path data syn opts).filter (keepTag opts)).filter
            (fun t => ! isCommentState t.st) := by
      rw [List.filter_filter]
      apply List.filter_congr
      intro t _
      rw [keepTag_ignoreComments opts hc hs t, Bool.and_comm]
    rw [heq, hbase]
  · rw [← List.countP_eq_length_filter]
    have h := List.length_eq_countP_add_countP (fun t => isCommentState t.st) l
    simp only [decide_not, Bool.decide_coe] at h
    omega
  · rw [scanContent_eq_all, ← scanAll_opts path data syn opts _ hsev2]
    have heq : (scanAll path data syn opts).filter
        (keepTag { opts with IgnoreStrings := true })
        = ((scanAll path data syn opts).filter (keepTag opts)).filter
            (fun t => ! isStringState t.st) := by
      rw [List.filter_filter]
      apply List.filter_congr
      intro t _
      rw [keepTag_ignoreStrings opts hc hs t, Bool.and_comm]
    rw [heq, hbase]
  · rw [← List.countP_eq_length_filter]
    have h := List.length_eq_countP_add_countP (fun t => isStringState t.st) l
    simp only [decide_not, Bool.decide_coe] at h
    omega
  · rw [scanContent_eq_all, ← scanAll_opts path data syn opts _ hsev3]
    have heq : (scanAll path data syn opts).filter
        (keepTag { opts with IgnoreComments := true, IgnoreStrings := true })
        = ((scanAll path data syn opts).filter (keepTag opts)).filter
            (fun t => ! isCommentState t.st && ! isStringState t.st) := by
      rw [List.filter_filter]
      apply List.filter_congr
      intro t _
      rw [keepTag_ignoreBoth opts hc hs t, Bool.and_comm]
    rw [heq, hbase]
    simp only [codeState_iff]
  · rw [← List.countP_eq_length_filter]
    exact hcode

theorem reachesDecode_scanStep (path : String) (lines : List (List Nat)) (syn : syntaxRules)
    (opts : Options) (pos : ScanPos) (rest : List Nat)
    (h : reachesDecode syn pos rest = true) :
    scanStep path lines syn opts pos rest = decodeStep path lines opts pos rest := by
  cases rest with
  | nil => simp [reachesDecode] at h
  | cons b tl =>
    cases hst : pos.state <;>
      simp only [reachesDecode, hst, decide_eq_true_eq] at h <;>
      simp only [scanStep, hst]
    case stateCode =>
      obtain ⟨hbs, hlc, hstr⟩ := h
      rw [if_neg hbs, hlc]
      by_cases hstrings : syn.strings
      · simp only [hstrings, if_true]
        rw [if_neg, if_neg, if_neg]
        · intro hb; exact hstr ⟨hstrings, Or.inr (Or.inr hb)⟩
        · intro hb; exact hstr ⟨hstrings, Or.inr (Or.inl hb)⟩
        · intro hb; exact hstr ⟨hstrings, Or.inl hb⟩
      · simp [hstrings]
    case stateLineComment => rw [if_neg h]
    case stateBlockComment => rw [if_neg h]
    case stateSingleString =>
      by_cases hesc : pos.escaped
      · simp only [hesc]; simp
      · simp only [hesc]
        rw [if_pos, if_neg, if_neg]
        · intro hb; exact h ⟨hesc, Or.inr hb⟩
        · intro hb; exact h ⟨hesc, Or.inl hb⟩
        · decide
    case stateDoubleString =>
      by_cases hesc : pos.escaped
      · simp only [hesc]; simp
      · simp only [hesc]
        rw [if_pos, if_neg, if_neg]
        · intro hb; exact h ⟨hesc, Or.inr hb⟩
        · intro hb; exact h ⟨hesc, Or.inl hb⟩
        · decide
    case stateBacktickString => rw [if_neg h]

/-- C4: an inspected byte at which UTF-8 decoding fails produces exactly one
Finding with category Invalid UTF-8, the fixed placeholder character and
code-point text, and the scanner advances exactly one byte; concretely, a
file with a single invalid byte followed by ASCII text yields exactly one
such Finding and subsequent line/column positions stay correct. -/
theorem C4_invalid_utf8 :
    (∀ (path : String) (lines : List (List Nat)) (syn : syntaxRules) (opts : Options)
       (pos : ScanPos) (rest : List Nat),
       reachesDecode syn pos rest = true →
       (utf8Decode rest).1 = RuneError → (utf8Decode rest).2 = 1 →
       scanStep path lines syn opts pos rest
         = (rest.drop 1, ⟨pos.line, pos.col + 1, pos.state, false⟩,
            if shouldInspect pos.state opts then some (invalidFinding path lines pos opts)
            else none))
    ∧ (scanContent "x.txt" resyncContent (syntaxForPath "x.txt") defaultOptions).map
        (fun f => (f.Line, f.Column, f.Category, f.CodePoint))
        = [(1, 1, "Invalid UTF-8", "invalid-utf8"), (2, 1, "CJK", "U+3042")] := by
  constructor
  · intro path lines syn opts pos rest hreach hr hsz
    rw [reachesDecode_scanStep path lines syn opts pos rest hreach]
    simp only [decodeStep, hr, hsz, and_self, if_true]
  · decide

theorem decodeStep_emission (path : String) (lines : List (List Nat))
    (opts : Options) (pos : ScanPos) (rest : List Nat) (f : Finding)
    (h : (decodeStep path lines opts pos rest).2.2 = some f) :
    f.Line = pos.line ∧ f.Excerpt = lineExcerpt lines pos.line := by
  simp only [decodeStep, invalidFinding, runeFinding] at h
  repeat' split at h
  all_goals (cases h <;> exact ⟨rfl, rfl⟩)

theorem scanStep_emission (path : String) (lines : List (List Nat)) (syn : syntaxRules)
    (opts : Options) (pos : ScanPos) (rest : List Nat) (f : Finding)
    (h : (scanStep path lines syn opts pos rest).2.2 = some f) :
    f.Line = pos.line ∧ f.Excerpt = lineExcerpt lines pos.line := by
  cases rest with
  | nil => simp [scanStep] at h
  | cons b tl =>
    simp only [scanStep] at h
    cases pos.state <;> repeat' split at h
    all_goals first
      | (simp_all [consumeTok]; done)
      | exact decodeStep_emission path lines opts pos _ f h

theorem scanLoopF_excerpt (path : String) (lines : List (List Nat)) (syn : syntaxRules)
    (opts : Options) :
    ∀ (fuel : Nat) (pos : ScanPos) (rest : List Nat) (f : Finding),
      f ∈ scanLoopF path lines syn opts fuel pos rest →
      f.Excerpt = lineExcerpt lines f.Line := by
  intro fuel
  induction fuel with
  | zero => intro pos rest f hf; simp [scanLoopF] at hf
  | succ n ih =>
    intro pos rest f hf
    cases rest with
    | nil => rw [scanLoopF_nil] at hf; simp at hf
    | cons b tl =>
      simp only [scanLoopF, List.mem_append] at hf
      rcases hf with hf | hf
      · have hsome : (scanStep path lines syn opts pos (b :: tl)).2.2 = some f := by
          cases hopt : (scanStep path lines syn opts pos (b :: tl)).2.2 <;>
            simp [hopt] at hf
          simp [hf]
        obtain ⟨hl, he⟩ := scanStep_emission path lines syn opts pos _ f hsome
        rw [he, hl]
      · exact ih _ _ f hf

/-- C2 (amended): every Finding's excerpt is lineExcerpt of the file's
lines at the finding's line: the source line with trailing carriage returns
removed when that line is at most 160 bytes, and otherwise its first 160
bytes followed by the three-byte ellipsis marker (163 bytes in total). -/
theorem C2_amended :
    (∀ (path : String) (data : List Nat) (syn : syntaxRules) (opts : Options) (f : Finding),
       f ∈ scanContent path data syn opts →
       f.Excerpt = lineExcerpt (splitLines data) f.Line)
    ∧ (∀ (lines : List (List Nat)) (n : Nat), 1 ≤ n → n ≤ lines.length →
       lineExcerpt lines n
         = if (trimCR (lines.getD (n - 1) [])).length > 160
           then (trimCR (lines.getD (n - 1) [])).take 160 ++ [46, 46, 46]
           else trimCR (lines.getD (n - 1) [])) := by
  constructor
  · intro path data syn opts f hf
    exact scanLoopF_excerpt path (splitLines data) syn opts _ _ _ f hf
  · intro lines n h1 h2
    unfold lineExcerpt
    rw [if_neg (by omega)]

/-- C2 counterexample: on a 173-byte single-line file the only finding's
excerpt is 163 bytes long, refuting the claim that excerpts are at most 160
characters long. -/
theorem C2_counterexample :
    (scanContent "x.txt" longLineContent (syntaxForPath "x.txt") defaultOptions).map
      (fun f => f.Excerpt.length) = [163] := by decide

/-- C10: the content scanner terminates on every input: each loop iteration
strictly shrinks the remaining byte list, so running the loop with the
input length as fuel (as scanContent does) is insensitive to any larger
fuel — the scanner is a total function of the bytes, rules and options. -/
theorem C10_termination :
    (∀ (path : String) (lines : List (List Nat)) (syn : syntaxRules) (opts : Options)
       (pos : ScanPos) (b : Nat) (tl : List Nat),
       (scanStep path lines syn opts pos (b :: tl)).1.length < (b :: tl).length)
    ∧ (∀ (path : String) (syn : syntaxRules) (opts : Options) (data : List Nat) (fuel : Nat),
       data.length ≤ fuel →
       scanLoopF path (splitLines data) syn opts fuel ⟨1, 1, .stateCode, false⟩ data
         = scanContent path data syn opts) := by
  constructor
  · exact scanStep_shrinks
  · intro path syn opts data fuel h
    unfold scanContent
    exact scanLoopF_fuel path (splitLines data) syn opts fuel data.length _ data h le_rfl

/-- Witness for C10_termination. -/
theorem C10_termination_witness :
    (scanStep "a.go" [[227]] (syntaxForPath "a.go") defaultOptions
        ⟨1, 1, .stateCode, false⟩ (227 :: [])).1.length < (227 :: []).length
    ∧ scanLoopF "a.go" (splitLines [227]) (syntaxForPath "a.go") defaultOptions 7
        ⟨1, 1, .stateCode, false⟩ [227]
        = scanContent "a.go" [227] (syntaxForPath "a.go") defaultOptions :=
  ⟨C10_termination.1 "a.go" [[227]] (syntaxForPath "a.go") defaultOptions ⟨1, 1, .stateCode, false⟩ 227 [],
   C10_termination.2 "a.go" (syntaxForPath "a.go") defaultOptions [227] 7 (by decide)⟩

/-- Witness for C2_amended at the long-line content. -/
theorem C2_amended_witness :
    (⟨"x.txt", 1, 171, "あ", "U+3042", "CJK", "error",
        "Detected CJK character \"あ\" (U+3042)",
        lineExcerpt (splitLines longLineContent) 1⟩ : Finding).Excerpt
      = lineExcerpt (splitLines longLineContent)
          (⟨"x.txt", 1, 171, "あ", "U+3042", "CJK", "error",
            "Detected CJK character \"あ\" (U+3042)",
            lineExcerpt (splitLines longLineContent) 1⟩ : Finding).Line
    ∧ lineExcerpt (splitLines longLineContent) 1
        = if (trimCR ((splitLines longLineContent).getD 0 [])).length > 160
          then (trimCR ((splitLines longLineContent).getD 0 [])).take 160 ++ [46, 46, 46]
          else trimCR ((splitLines longLineContent).getD 0 []) :=
  ⟨C2_amended.1 "x.txt" longLineContent (syntaxForPath "x.txt") defaultOptions _ (by decide),
   C2_amended.2 (splitLines longLineContent) 1 le_rfl (by decide)⟩

/-- Witness for C3_context_suppression at mixedContent. -/
theorem C3_witness :
    scanContent "a.go" mixedContent (syntaxForPath "a.go") defaultOptions
        = mixedTags.map (fun t => t.finding)
    ∧ scanContent "a.go" mixedContent (syntaxForPath "a.go")
        { defaultOptions with IgnoreComments := true }
        = (mixedTags.filter (fun t => ! isCommentState t.st)).map (fun t => t.finding)
    ∧ (mixedTags.filter (fun t => ! isCommentState t.st)).length = 2
    ∧ scanContent "a.go" mixedContent (syntaxForPath "a.go")
        { defaultOptions with IgnoreStrings := true }
        = (mixedTags.filter (fun t => ! isStringState t.st)).map (fun t => t.finding)
    ∧ (mixedTags.filter (fun t => ! isStringState t.st)).length = 2
    ∧ scanContent "a.go" mixedContent (syntaxForPath "a.go")
        { defaultOptions with IgnoreComments := true, IgnoreStrings := true }
        = (mixedTags.filter (fun t => decide (t.st = ScanState.stateCode))).map
            (fun t => t.finding)
    ∧ (mixedTags.filter (fun t => decide (t.st = ScanState.stateCode))).length = 1 :=
  C3_context_suppression "a.go" mixedContent (syntaxForPath "a.go") defaultOptions rfl rfl
    mixedTags rfl (by decide) (by decide) (by decide) (by decide)

/-- Witness for the universal part of C4_invalid_utf8. -/
theorem C4_witness :
    reachesDecode (syntaxForPath "x.txt") ⟨1, 1, .stateCode, false⟩ [0xFF] = true
    ∧ scanStep "x.txt" [[0xFF]] (syntaxForPath "x.txt") defaultOptions
        ⟨1, 1, .stateCode, false⟩ [0xFF]
        = ([0xFF].drop 1, ⟨1, 1 + 1, .stateCode, false⟩,
           if shouldInspect .stateCode defaultOptions
           then some (invalidFinding "x.txt" [[0xFF]] ⟨1, 1, .stateCode, false⟩ defaultOptions)
           else none) :=
  ⟨by decide,
   C4_invalid_utf8.1 "x.txt" [[0xFF]] (syntaxForPath "x.txt") defaultOptions
     ⟨1, 1, .stateCode, false⟩ [0xFF] (by decide) (by decide) (by decide)⟩

theorem utf8Decode_encode (r : Nat) (h : ValidRune r) (rest : List Nat) :
    utf8Decode (utf8Encode r ++ rest) = (r, (utf8Encode r).length) := by
  have hr : r ≤ 0x10FFFF := by
    rcases h with h | h
    · omega
    · exact h.2
  by_cases h1 : r < 0x80
  · simp only [utf8Encode, h1, if_true, List.cons_append, List.nil_append]
    simp [utf8Decode, h1]
  · by_cases h2 : r < 0x800
    · simp only [utf8Encode, h1, if_false, h2, if_true, List.cons_append, List.nil_append]
      have ha1 : ¬ (0xC0 + r / 64 < 0x80) := by omega
      have ha2 : ¬ (0xC0 + r / 64 < 0xC2) := by omega
      have ha3 : 0xC0 + r / 64 ≤ 0xDF := by omega
      have hb : 0x80 ≤ 0x80 + r % 64 ∧ 0x80 + r % 64 ≤ 0xBF := by omega
      simp only [utf8Decode, ha1, if_false, ha2, ha3, if_true, hb, and_self,
        List.length_cons, List.length_nil]
      simp only [Prod.mk.injEq]
      exact ⟨by omega, by norm_num⟩
    · by_cases h3 : r < 0x10000
      · have hnosur : r < 0xD800 ∨ 0xE000 ≤ r := by
          rcases h with h | h
          · exact Or.inl h
          · exact Or.inr h.1
        simp only [utf8Encode, h1, if_false, h2, h3, if_true, List.cons_append,
          List.nil_append]
        have ha1 : ¬ (0xE0 + r / 4096 < 0x80) := by omega
        have ha2 : ¬ (0xE0 + r / 4096 < 0xC2) := by omega
        have ha3 : ¬ (0xE0 + r / 4096 ≤ 0xDF) := by omega
        have ha4 : 0xE0 + r / 4096 ≤ 0xEF := by omega
        have hlo : (if 0xE0 + r / 4096 = 0xE0 then 0xA0 else 0x80) ≤ 0x80 + r / 64 % 64 := by
          split
          · next he => omega
          · omega
        have hhi : 0x80 + r / 64 % 64 ≤ (if 0xE0 + r / 4096 = 0xED then 0x9F else 0xBF) := by
          split
          · next he => omega
          · omega
        have hb2 : 0x80 ≤ 0x80 + r % 64 ∧ 0x80 + r % 64 ≤ 0xBF := by omega
        simp only [utf8Decode, ha1, if_false, ha2, ha3, ha4, if_true]
        rw [if_pos ⟨hlo, hhi, hb2.1, hb2.2⟩]
        simp only [List.length_cons, List.length_nil]
        simp only [Prod.mk.injEq]
        exact ⟨by omega, by norm_num⟩
      · simp only [utf8Encode, h1, if_false, h2, h3, List.cons_append, List.nil_append]
        have ha1 : ¬ (0xF0 + r / 262144 < 0x80) := by omega
        have ha2 : ¬ (0xF0 + r / 262144 < 0xC2) := by omega
        have ha3 : ¬ (0xF0 + r / 262144 ≤ 0xDF) := by omega
        have ha4 : ¬ (0xF0 + r / 262144 ≤ 0xEF) := by omega
        have ha5 : 0xF0 + r / 262144 ≤ 0xF4 := by omega
        have hlo : (if 0xF0 + r / 262144 = 0xF0 then 0x90 else 0x80) ≤ 0x80 + r / 4096 % 64 := by
          split
          · next he => omega
          · omega
        have hhi : 0x80 + r / 4096 % 64 ≤ (if 0xF0 + r / 262144 = 0xF4 then 0x8F else 0xBF) := by
          split
          · next he => omega
          · omega
        have hb2 : 0x80 ≤ 0x80 + r / 64 % 64 ∧ 0x80 + r / 64 % 64 ≤ 0xBF := by omega
        have hb3 : 0x80 ≤ 0x80 + r % 64 ∧ 0x80 + r % 64 ≤ 0xBF := by omega
        simp only [utf8Decode, ha1, if_false, ha2, ha3, ha4, ha5, if_true]
        rw [if_pos ⟨hlo, hhi, hb2.1, hb2.2, hb3.1, hb3.2⟩]
        simp only [List.length_cons, List.length_nil]
        simp only [Prod.mk.injEq]
        exact ⟨by omega, by norm_num⟩

theorem utf8Encode_ne_nil (r : Nat) : utf8Encode r ≠ [] := by
  unfold utf8Encode
  repeat' split
  all_goals simp

theorem utf8EncodeList_cons (r : Nat) (rs : List Nat) :
    utf8EncodeList (r :: rs) = utf8Encode r ++ utf8EncodeList rs := by
  simp [utf8EncodeList]

theorem utf8Encode_head_ascii {r b : Nat} {tl : List Nat}
    (h : utf8Encode r = b :: tl) (hb : b < 0x80) : r = b ∧ tl = [] := by
  unfold utf8Encode at h
  repeat' split at h
  all_goals simp only [List.cons.injEq] at h
  · exact ⟨h.1, h.2.symm⟩
  · omega
  · omega
  · omega

theorem utf8EncodeList_head_ascii {rs : List Nat} {b : Nat} {tl : List Nat}
    (he : utf8EncodeList rs = b :: tl) (hb : b < 0x80) :
    ∃ rs2, rs = b :: rs2 ∧ utf8EncodeList rs2 = tl := by
  cases rs with
  | nil => simp [utf8EncodeList] at he
  | cons r rs2 =>
    rw [utf8EncodeList_cons] at he
    cases henc : utf8Encode r with
    | nil => exact absurd henc (utf8Encode_ne_nil r)
    | cons x xs =>
      rw [henc] at he
      simp only [List.cons_append, List.cons.injEq] at he
      obtain ⟨hx, hrest⟩ := he
      subst hx
      obtain ⟨hr, hxs⟩ := utf8Encode_head_ascii henc hb
      subst hr
      subst hxs
      simp only [List.nil_append] at hrest
      exact ⟨rs2, rfl, hrest⟩

theorem advTokF_ascii :
    ∀ (tok : List Nat), asciiTok tok = true → ∀ i line col,
      (advTokF tok.length tok i line col).1 = i + tok.length := by
  intro tok
  induction tok with
  | nil => intro _ i line col; simp [advTokF]
  | cons b tl ih =>
    intro ha i line col
    simp only [asciiTok, List.all_cons, Bool.and_eq_true, decide_eq_true_eq] at ha
    obtain ⟨hb, htl⟩ := ha
    have hdec : utf8Decode (b :: tl) = (b, 1) := by
      simp only [utf8Decode]
      rw [if_pos hb]
    have hrl : runeLen b = 1 := by unfold runeLen; rw [if_pos hb]
    simp only [List.length_cons, advTokF, hdec, hrl]
    have ihx := ih htl
    split <;> (simp only [List.drop_succ_cons, List.drop_zero, ihx]; omega)

theorem utf8EncodeList_ascii_drop :
    ∀ (t : List Nat), asciiTok t = true →
      ∀ (rs : List Nat), t.isPrefixOf (utf8EncodeList rs) = true →
        utf8EncodeList (rs.drop t.length) = (utf8EncodeList rs).drop t.length := by
  intro t
  induction t with
  | nil => intro _ rs _; simp
  | cons b t2 ih =>
    intro ha rs hpre
    simp only [asciiTok, List.all_cons, Bool.and_eq_true, decide_eq_true_eq] at ha
    obtain ⟨hb, ht2⟩ := ha
    cases hL : utf8EncodeList rs with
    | nil => rw [hL] at hpre; simp [List.isPrefixOf] at hpre
    | cons x xs =>
      rw [hL] at hpre
      simp only [List.isPrefixOf, Bool.and_eq_true, beq_iff_eq] at hpre
      obtain ⟨hbx, hpre2⟩ := hpre
      subst hbx
      obtain ⟨rs2, hrs, henc2⟩ := utf8EncodeList_head_ascii hL hb
      subst hrs
      have := ih (by simp [asciiTok, ht2]) rs2 (by rw [henc2]; exact hpre2)
      simp only [List.length_cons, List.drop_succ_cons]
      rw [this, henc2]

theorem matchTok_mem {input tok : List Nat} :
    ∀ {ps : List (List Nat)}, matchTok input ps = some tok → tok ∈ ps
  | [], h => by simp [matchTok] at h
  | p :: ps, h => by
    by_cases hp : p = []
    · exact List.mem_cons_of_mem p (matchTok_mem (by simpa [matchTok, hp] using h))
    · by_cases hpre : p.isPrefixOf input
      · simp only [matchTok, hp, if_false, hpre, if_true] at h
        cases h; exact List.mem_cons_self _ _
      · exact List.mem_cons_of_mem p (matchTok_mem (by simpa [matchTok, hp, hpre] using h))

theorem matchTok_pref {input tok : List Nat} :
    ∀ {ps : List (List Nat)}, matchTok input ps = some tok → tok.isPrefixOf input = true
  | [], h => by simp [matchTok] at h
  | p :: ps, h => by
    by_cases hp : p = []
    · exact matchTok_pref (by simpa [matchTok, hp] using h)
    · by_cases hpre : p.isPrefixOf input
      · simp only [matchTok, hp, if_false, hpre, if_true] at h
        cases h; exact hpre
      · exact matchTok_pref (by simpa [matchTok, hp, hpre] using h)

theorem utf8Encode_length_ne_one (r : Nat) (h : r = RuneError) : (utf8Encode r).length ≠ 1 := by
  subst h
  decide

theorem decodeStepAll_enc (path : String) (lines : List (List Nat))
    (opts : Options) (pos : ScanPos) (r0 : Nat) (rs0 : List Nat) (hv0 : ValidRune r0) :
    (decodeStepAll path lines opts pos (utf8EncodeList (r0 :: rs0))).1
        = utf8EncodeList rs0
    ∧ ∀ t, (decodeStepAll path lines opts pos (utf8EncodeList (r0 :: rs0))).2.2 = some t →
        t.ev = some r0 := by
  have hdec : utf8Decode (utf8EncodeList (r0 :: rs0)) = (r0, (utf8Encode r0).length) := by
    rw [utf8EncodeList_cons]
    exact utf8Decode_encode r0 hv0 _
  have hdrop : (utf8EncodeList (r0 :: rs0)).drop (utf8Encode r0).length
      = utf8EncodeList rs0 := by
    rw [utf8EncodeList_cons]
    exact List.drop_left _ _
  simp only [decodeStepAll]
  split
  · next hinv =>
    exfalso
    rw [hdec] at hinv
    exact utf8Encode_length_ne_one r0 hinv.1 hinv.2
  · simp only [hdec]
    split
    · exact ⟨hdrop, fun t ht => by cases ht; rfl⟩
    · exact ⟨hdrop, fun t ht => by cases ht; rfl⟩

theorem scanStepAll_enc (path : String) (lines : List (List Nat)) (syn : syntaxRules)
    (hsyn : asciiSyntax syn = true) (opts : Options) (pos : ScanPos)
    (r0 : Nat) (rs0 : List Nat) (hv : ∀ r ∈ r0 :: rs0, ValidRune r) :
    ∃ k, 1 ≤ k
      ∧ (scanStepAll path lines syn opts pos (utf8EncodeList (r0 :: rs0))).1
          = utf8EncodeList ((r0 :: rs0).drop k)
      ∧ ∀ t, (scanStepAll path lines syn opts pos (utf8EncodeList (r0 :: rs0))).2.2 = some t →
          ∃ r ∈ r0 :: rs0, t.ev = some r := by
  have hv0 : ValidRune r0 := hv r0 (List.mem_cons_self _ _)
  simp only [asciiSyntax, Bool.and_eq_true, List.all_eq_true] at hsyn
  obtain ⟨⟨hbsA, hbeA⟩, hlcA⟩ := hsyn
  cases hL : utf8EncodeList (r0 :: rs0) with
  | nil =>
    exfalso
    rw [utf8EncodeList_cons] at hL
    exact utf8Encode_ne_nil r0 (List.append_eq_nil.mp hL).1
  | cons b tl =>
    have htok : ∀ (tok : List Nat) (next : ScanState), asciiTok tok = true → tok ≠ [] →
        tok.isPrefixOf (b :: tl) = true →
        ∃ k, 1 ≤ k
          ∧ (consumeTokAll tok (b :: tl) pos next).1
              = utf8EncodeList ((r0 :: rs0).drop k)
          ∧ ∀ t, (consumeTokAll tok (b :: tl) pos next).2.2 = some t →
              ∃ r ∈ r0 :: rs0, t.ev = some r := by
      intro tok next ha hne2 hpre
      rw [← hL] at hpre
      rw [← hL]
      refine ⟨tok.length, ?_, ?_, ?_⟩
      · cases tok with
        | nil => exact absurd rfl hne2
        | cons x xs => simp
      · simp only [consumeTokAll]
        have hadv : (advTok tok pos.line pos.col).1 = tok.length := by
          unfold advTok
          rw [advTokF_ascii tok ha 0 pos.line pos.col]
          omega
        rw [hadv]
        exact (utf8EncodeList_ascii_drop tok ha (r0 :: rs0) hpre).symm
      · intro t ht
        simp [consumeTokAll] at ht
    have hbyte : b < 0x80 → utf8EncodeList ((r0 :: rs0).drop 1) = tl := by
      intro hb
      obtain ⟨rs2, hcons, htl2⟩ := utf8EncodeList_head_ascii hL hb
      rw [List.cons.injEq] at hcons
      obtain ⟨hr0b, hrs⟩ := hcons
      subst hrs
      simpa using htl2
    have hdec : ∃ k, 1 ≤ k
        ∧ (decodeStepAll path lines opts pos (b :: tl)).1
            = utf8EncodeList ((r0 :: rs0).drop k)
        ∧ ∀ t, (decodeStepAll path lines opts pos (b :: tl)).2.2 = some t →
            ∃ r ∈ r0 :: rs0, t.ev = some r := by
      rw [← hL]
      obtain ⟨hd1, hd2⟩ := decodeStepAll_enc path lines opts pos r0 rs0 hv0
      exact ⟨1, le_rfl, by simpa using hd1,
        fun t ht => ⟨r0, List.mem_cons_self _ _, hd2 t ht⟩⟩
    simp only [scanStepAll]
    have honebyte : ∀ (out : ScanPos), b < 0x80 →
        ∃ k, 1 ≤ k ∧ ((tl, out, (none : Option Tagged)).1 = utf8EncodeList ((r0 :: rs0).drop k))
          ∧ ∀ t, ((tl, out, (none : Option Tagged)).2.2 = some t →
              ∃ r ∈ r0 :: rs0, t.ev = some r) := by
      intro out hb
      refine ⟨1, le_rfl, (hbyte hb).symm, ?_⟩
      intro t ht
      simp at ht
    split
    · -- stateCode
      split
      · next hbs => exact htok syn.blockStart .stateBlockComment hbsA hbs.1 hbs.2
      · split
        · next tok hmt =>
          exact htok tok .stateLineComment (hlcA tok (matchTok_mem hmt))
            (matchTok_ne_nil hmt) (matchTok_pref hmt)
        · split
          · split
            · next hb => exact honebyte _ (by omega)
            · split
              · next hb => exact honebyte _ (by omega)
              · split
                · next hb => exact honebyte _ (by omega)
                · exact hdec
          · exact hdec
    · -- stateLineComment
      split
      · next hb => exact honebyte _ (by omega)
      · exact hdec
    · -- stateBlockComment
      split
      · next hbe => exact htok syn.blockEnd .stateCode hbeA hbe.1 hbe.2
      · exact hdec
    · -- stateSingleString
      split
      · split
        · next hb => exact honebyte _ (by omega)
        · split
          · next hb => exact honebyte _ (by omega)
          · exact hdec
      · exact hdec
    · -- stateDoubleString
      split
      · split
        · next hb => exact honebyte _ (by omega)
        · split
          · next hb => exact honebyte _ (by omega)
          · exact hdec
      · exact hdec
    · -- stateBacktickString
      split
      · next hb => exact honebyte _ (by omega)
      · exact hdec

theorem scanLoopAllF_enc (path : String) (lines : List (List Nat)) (syn : syntaxRules)
    (opts : Options) (hsyn : asciiSyntax syn = true) :
    ∀ (fuel : Nat) (pos : ScanPos) (rs : List Nat), (∀ r ∈ rs, ValidRune r) →
      ∀ t ∈ scanLoopAllF path lines syn opts fuel pos (utf8EncodeList rs),
        ∃ r ∈ rs, t.ev = some r := by
  intro fuel
  induction fuel with
  | zero => intro pos rs hv t ht; simp [scanLoopAllF] at ht
  | succ n ih =>
    intro pos rs hv t ht
    cases rs with
    | nil =>
      rw [show utf8EncodeList [] = [] from rfl, scanLoopAllF_nil] at ht
      simp at ht
    | cons r0 rs0 =>
      cases hL : utf8EncodeList (r0 :: rs0) with
      | nil =>
        exfalso
        rw [utf8EncodeList_cons] at hL
        exact utf8Encode_ne_nil r0 (List.append_eq_nil.mp hL).1
      | cons b tl =>
        rw [hL] at ht
        simp only [scanLoopAllF, List.mem_append] at ht
        obtain ⟨k, hk1, hrest, hemit⟩ :=
          scanStepAll_enc path lines syn hsyn opts pos r0 rs0 hv
        rw [hL] at hrest hemit
        rcases ht with ht | ht
        · have hsome : (scanStepAll path lines syn opts pos (b :: tl)).2.2 = some t := by
            cases hopt : (scanStepAll path lines syn opts pos (b :: tl)).2.2 <;>
              simp [hopt] at ht
            simp [ht]
          exact hemit t hsome
        · rw [hrest] at ht
          obtain ⟨r, hrmem, hev⟩ := ih _ _
            (fun r hr => hv r (List.mem_of_mem_drop hr)) t ht
          exact ⟨r, List.mem_of_mem_drop hrmem, hev⟩

theorem scanAll_enc (path : String) (syn : syntaxRules) (opts : Options)
    (hsyn : asciiSyntax syn = true) (rs : List Nat) (hv : ∀ r ∈ rs, ValidRune r) :
    ∀ t ∈ scanAll path (utf8EncodeList rs) syn opts, ∃ r ∈ rs, t.ev = some r := by
  unfold scanAll
  exact scanLoopAllF_enc path _ syn opts hsyn _ _ rs hv

theorem asciiSyntax_syntaxForPath (path : String) :
    asciiSyntax (syntaxForPath path) = true := by
  simp only [syntaxForPath]
  repeat' split
  all_goals decide

theorem isAllowedRune_filter_ne (r c : Nat) (allow : List Nat)
    (hr : isAllowedRune r allow = true) (hne : r ≠ c) :
    isAllowedRune r (allow.filter (fun x => x ≠ c)) = true := by
  by_cases h1 : r = 10 ∨ r = 13 ∨ r = 9
  · simp [isAllowedRune, h1]
  · by_cases h2 : 0x20 ≤ r ∧ r ≤ 0x7e
    · simp [isAllowedRune, h1, h2]
    · simp only [isAllowedRune, h1, if_false, h2] at hr ⊢
      simp only [List.contains, List.elem_eq_mem, decide_eq_true_eq] at hr ⊢
      exact List.mem_filter.mpr ⟨hr, by simpa using hne⟩

theorem isAllowedRune_filter_self (c : Nat) (allow : List Nat)
    (hc : isAllowedRune c [] = false) :
    isAllowedRune c (allow.filter (fun x => x ≠ c)) = false := by
  simp only [isAllowedRune] at hc ⊢
  repeat' split at hc
  · exact absurd hc (by simp)
  · exact absurd hc (by simp)
  · rw [if_neg (by assumption), if_neg (by assumption)]
    simp only [List.contains, List.elem_eq_mem, decide_eq_false_iff_not]
    intro hmem
    have hne2 := (List.mem_filter.mp hmem).2
    simp at hne2

theorem shouldInspect_allowRunes (st : ScanState) (opts : Options) (x : List Nat) :
    shouldInspect st { opts with AllowRunes := x } = shouldInspect st opts := by
  cases st <;> rfl

/-- C7 (amended): a text whose code points are all permitted or allow-listed
yields zero Findings; and removing one non-permitted code point from the
allow list re-introduces exactly the findings the instrumented scan
attributes to that code point's occurrences at inspected positions, leaving
everything else unchanged. -/
theorem C7_allow_list (path : String) (opts : Options) (rs : List Nat) (c : Nat)
    (hv : ∀ r ∈ rs, ValidRune r)
    (hall : ∀ r ∈ rs, isAllowedRune r opts.AllowRunes = true)
    (hc : isAllowedRune c [] = false) :
    scanContent path (utf8EncodeList rs) (syntaxForPath path) opts = []
    ∧ scanContent path (utf8EncodeList rs) (syntaxForPath path)
        { opts with AllowRunes := opts.AllowRunes.filter (fun x => x ≠ c) }
      = ((scanAll path (utf8EncodeList rs) (syntaxForPath path) opts).filter
          (fun t => shouldInspect t.st opts && t.ev == some c)).map
          (fun t => t.finding) := by
  have hta := scanAll_enc path (syntaxForPath path) opts
    (asciiSyntax_syntaxForPath path) rs hv
  constructor
  · rw [scanContent_eq_all]
    have hnil : (scanAll path (utf8EncodeList rs) (syntaxForPath path) opts).filter
        (keepTag opts) = [] := by
      rw [List.filter_eq_nil_iff]
      intro t ht
      obtain ⟨r, hrmem, hev⟩ := hta t ht
      simp [keepTag, hev, hall r hrmem]
    rw [hnil]
    rfl
  · rw [scanContent_eq_all]
    have hsev : opts.Severity
        = ({ opts with AllowRunes := opts.AllowRunes.filter (fun x => x ≠ c) } : Options).Severity := rfl
    rw [← scanAll_opts path (utf8EncodeList rs) (syntaxForPath path) opts _ hsev]
    have hfc : (scanAll path (utf8EncodeList rs) (syntaxForPath path) opts).filter
        (keepTag { opts with AllowRunes := opts.AllowRunes.filter (fun x => x ≠ c) })
        = (scanAll path (utf8EncodeList rs) (syntaxForPath path) opts).filter
            (fun t => shouldInspect t.st opts && t.ev == some c) := by
      apply List.filter_congr
      intro t ht
      obtain ⟨r, hrmem, hev⟩ := hta t ht
      by_cases hrc : r = c
      · subst hrc
        simp only [keepTag, hev, shouldInspect_allowRunes]
        rw [isAllowedRune_filter_self r opts.AllowRunes hc]
        simp
      · simp only [keepTag, hev, shouldInspect_allowRunes]
        rw [isAllowedRune_filter_ne r c opts.AllowRunes (hall r hrmem) hrc]
        simp [hrc]
    rw [hfc]

/-- Witness for C7_allow_list at the one-rune text あ. -/
theorem C7_witness :
    scanContent "w.txt" (utf8EncodeList [0x3042]) (syntaxForPath "w.txt") allowOpts = []
    ∧ scanContent "w.txt" (utf8EncodeList [0x3042]) (syntaxForPath "w.txt")
        { allowOpts with AllowRunes := allowOpts.AllowRunes.filter (fun x => x ≠ 0x3042) }
      = ((scanAll "w.txt" (utf8EncodeList [0x3042]) (syntaxForPath "w.txt") allowOpts).filter
          (fun t => shouldInspect t.st allowOpts && t.ev == some 0x3042)).map
          (fun t => t.finding) :=
  C7_allow_list "w.txt" allowOpts [0x3042] 0x3042 (by decide) (by decide) (by decide)

/-- C7 counterexample: the text `a` consists solely of the allow-listed
code point 97, yet after removing 97 from the allow list the scan still
yields zero Findings although 97 occurs once — 97 lies in the always
permitted ASCII range, refuting the claim that removal re-introduces
exactly the findings at that code point's occurrences. -/
theorem C7_counterexample :
    isAllowedRune 97 [97] = true
    ∧ (utf8EncodeList [97]).count 97 = 1
    ∧ scanContent "x.txt" (utf8EncodeList [97]) (syntaxForPath "x.txt")
        { defaultOptions with AllowRunes := [97].filter (fun x => x ≠ 97) } = [] := by
  refine ⟨by decide, by decide, by decide⟩

theorem findingLess_eq_key (a b : Finding) :
    findingLess a b = decide (findingKey a < findingKey b) := by
  unfold findingLess findingKey
  rw [Bool.eq_iff_iff]
  simp only [decide_eq_true_eq, Prod.Lex.lt_iff]
  split_ifs with hp hl hcol <;> simp only [decide_eq_true_eq]
  · constructor
    · exact fun h => Or.inl h
    · rintro (h | ⟨heq, _⟩)
      · exact h
      · exact absurd heq hp
  · have hpe := not_ne_iff.mp hp
    have hnp : ¬ strBytes a.Path < strBytes b.Path := by rw [hpe]; exact lt_irrefl _
    constructor
    · exact fun h => Or.inr ⟨hpe, Or.inl h⟩
    · rintro (h | ⟨_, h | ⟨heq, _⟩⟩)
      · exact absurd h hnp
      · exact h
      · exact absurd heq hl
  · have hpe := not_ne_iff.mp hp
    have hle := not_ne_iff.mp hl
    have hnp : ¬ strBytes a.Path < strBytes b.Path := by rw [hpe]; exact lt_irrefl _
    have hnl : ¬ a.Line < b.Line := by rw [hle]; exact lt_irrefl _
    constructor
    · exact fun h => Or.inr ⟨hpe, Or.inr ⟨hle, Or.inl h⟩⟩
    · rintro (h | ⟨_, h | ⟨_, h | ⟨heq, _⟩⟩⟩)
      · exact absurd h hnp
      · exact absurd h hnl
      · exact h
      · exact absurd heq hcol
  · have hpe := not_ne_iff.mp hp
    have hle := not_ne_iff.mp hl
    have hce := not_ne_iff.mp hcol
    have hnp : ¬ strBytes a.Path < strBytes b.Path := by rw [hpe]; exact lt_irrefl _
    have hnl : ¬ a.Line < b.Line := by rw [hle]; exact lt_irrefl _
    have hnc : ¬ a.Column < b.Column := by rw [hce]; exact lt_irrefl _
    constructor
    · exact fun h => Or.inr ⟨hpe, Or.inr ⟨hle, Or.inr ⟨hce, h⟩⟩⟩
    · rintro (h | ⟨_, h | ⟨_, h | ⟨_, h⟩⟩⟩)
      · exact absurd h hnp
      · exact absurd h hnl
      · exact absurd h hnc
      · exact h

theorem findingLE_iff_key (a b : Finding) :
    findingLE a b ↔ findingKey a ≤ findingKey b := by
  unfold findingLE
  rw [findingLess_eq_key]
  simp [not_lt]

theorem sortFindings_pairwise (l : List Finding) :
    (sortFindings l).Pairwise findingLE := by
  letI ht : IsTotal Finding findingLE := ⟨fun a b => by
    rw [findingLE_iff_key, findingLE_iff_key]; exact le_total _ _⟩
  letI htr : IsTrans Finding findingLE := ⟨fun a b c hab hbc => by
    rw [findingLE_iff_key] at hab hbc ⊢; exact le_trans hab hbc⟩
  exact List.sorted_insertionSort findingLE l

/-- C6: in every successful Scan result the findings list is sorted: for
any finding before another, the key (path, line, column, codePoint) is
lexicographically at most the later one's, in that tie-break order,
independent of the filesystem enumeration order. -/
theorem C6_sort_invariant (m : Matcher) (roots : List String) (fs : String → Option FNode)
    (opts : Options) (h : (ScanGo m roots fs opts).2 = none) :
    (ScanGo m roots fs opts).1.Findings.Pairwise
      (fun a b => findingKey a ≤ findingKey b) := by
  simp only [ScanGo] at h ⊢
  cases hsr : scanRoots m (normalizeOptions opts) fs (cleanRoots roots) ([], emptyResult) with
  | error e => rw [hsr] at h; exact Option.noConfusion h
  | ok st =>
    exact (sortFindings_pairwise st.2.Findings).imp (fun hab => (findingLE_iff_key _ _).mp hab)

/-- Witness for C6_sort_invariant on a concrete one-file scan. -/
theorem C6_witness :
    (ScanGo matcherNone ["sample.go"] fsSample defaultOptions).1.Findings.Pairwise
      (fun a b => findingKey a ≤ findingKey b) :=
  C6_sort_invariant matcherNone ["sample.go"] fsSample defaultOptions (by decide)

/-- C1 counterexample: scanning a file sample.go whose content is exactly
the line with var underscore assign of こんにちは under default Options yields
five Findings, all at line 1, and Summary.findings is 5 — not one Finding at
line 2 with Summary.findings 1 as the claim states. -/
theorem C1_counterexample :
    (ScanGo matcherNone ["sample.go"] fsSample defaultOptions).1.Summary.Findings = 5
    ∧ ¬ (ScanGo matcherNone ["sample.go"] fsSample defaultOptions).1.Summary.Findings = 1
    ∧ (ScanGo matcherNone ["sample.go"] fsSample defaultOptions).1.Findings.map
        (fun f => f.Line) = [1, 1, 1, 1, 1] := by
  refine ⟨by decide, by decide, by decide⟩

/-- C1 (amended): the same scan succeeds and yields exactly five Findings,
one per code point of こんにちは, each with category CJK and severity error,
at line 1 columns 10 through 14, the first being the first Japanese code
point こ (U+3053); Summary is one file scanned, none skipped, five
findings. -/
theorem C1_amended :
    (ScanGo matcherNone ["sample.go"] fsSample defaultOptions).2 = none
    ∧ (ScanGo matcherNone ["sample.go"] fsSample defaultOptions).1.Findings.map
        (fun f => (f.Path, f.Line, f.Column, f.Category, f.Severity, f.CodePoint))
      = [("sample.go", 1, 10, "CJK", "error", "U+3053"),
         ("sample.go", 1, 11, "CJK", "error", "U+3093"),
         ("sample.go", 1, 12, "CJK", "error", "U+306B"),
         ("sample.go", 1, 13, "CJK", "error", "U+3061"),
         ("sample.go", 1, 14, "CJK", "error", "U+306F")]
    ∧ (ScanGo matcherNone ["sample.go"] fsSample defaultOptions).1.Summary = ⟨1, 0, 5⟩ := by
  refine ⟨by decide, by decide, by decide⟩

theorem normalizeOptions_Include (opts : Options) :
    (normalizeOptions opts).Include = opts.Include := by
  simp only [normalizeOptions]; split <;> rfl

theorem normalizeOptions_Exclude (opts : Options) :
    (normalizeOptions opts).Exclude = opts.Exclude := by
  simp only [normalizeOptions]; split <;> rfl

theorem normalizeOptions_AllowFilePatterns (opts : Options) :
    (normalizeOptions opts).AllowFilePatterns = opts.AllowFilePatterns := by
  simp only [normalizeOptions]; split <;> rfl

theorem isBinary_iff (data : List Nat) :
    isBinary data = true
      ↔ (0 ∈ data.take 8192
         ∨ 10 * (data.take 8192).countP
             (fun b => ¬ (b = 10 ∨ b = 13 ∨ b = 9) ∧ (b < 0x20 ∨ b = 0x7f))
           > 3 * (data.take 8192).length) := by
  simp only [isBinary]
  split
  · next hlen =>
    have hnil : data = [] := List.length_eq_zero.mp hlen
    subst hnil
    simp
  · split
    · next hcont =>
      simp only [List.contains, List.elem_eq_mem, decide_eq_true_eq] at hcont
      simp [hcont]
    · next hncont =>
      simp only [List.contains, List.elem_eq_mem, decide_eq_true_eq] at hncont
      simp [hncont]

theorem scanFileNode_binary (m : Matcher) (opts : Options) (path : String)
    (data : List Nat) (visited : List String) (res : Result)
    (hmem : path ∉ visited)
    (hinc : isIncluded m path opts.Include = true)
    (hexc : isExcluded m path opts.Exclude = false)
    (haf : isAllowedFile m path opts.AllowFilePatterns = false)
    (hbin : isBinary data = true) :
    scanFileNode m opts path (some data) (visited, res)
      = .ok (path :: visited,
          { res with SkippedFiles := res.SkippedFiles ++ [⟨path, "binary file"⟩] }) := by
  simp only [scanFileNode]
  rw [if_neg hmem, if_neg (by simp [hinc]), if_neg (by simp [hexc]),
    if_neg (by simp [haf])]
  simp only [hbin, if_true]

/-- C5: a file whose first min(length, 8192) bytes contain a NUL byte or
whose control-byte fraction of that sample exceeds 0.30 is exactly what
isBinary accepts; such a file, once reached past the filters, is recorded
as a SkippedFile with reason binary file, contributes no Findings, and a
whole Scan of it yields empty findings and scanned lists with
filesScanned 0. -/
theorem C5_binary_skip :
    (∀ (data : List Nat),
       isBinary data = true
         ↔ (0 ∈ data.take 8192
            ∨ 10 * (data.take 8192).countP
                (fun b => ¬ (b = 10 ∨ b = 13 ∨ b = 9) ∧ (b < 0x20 ∨ b = 0x7f))
              > 3 * (data.take 8192).length))
    ∧ (∀ (m : Matcher) (opts : Options) (path : String) (data : List Nat)
         (visited : List String) (res : Result),
       path ∉ visited →
       isIncluded m path opts.Include = true →
       isExcluded m path opts.Exclude = false →
       isAllowedFile m path opts.AllowFilePatterns = false →
       isBinary data = true →
       scanFileNode m opts path (some data) (visited, res)
         = .ok (path :: visited,
             { res with SkippedFiles := res.SkippedFiles ++ [⟨path, "binary file"⟩] }))
    ∧ (∀ (m : Matcher) (opts : Options) (p : String) (data : List Nat)
         (fs : String → Option FNode),
       fs p = some (.file data) →
       trimSpace p = p → p ≠ "" →
       isIncluded m p opts.Include = true →
       isExcluded m p opts.Exclude = false →
       isAllowedFile m p opts.AllowFilePatterns = false →
       isBinary data = true →
       ScanGo m [p] fs opts
         = (⟨[], [], [⟨p, "binary file"⟩], ⟨0, 1, 0⟩⟩, none)) := by
  refine ⟨isBinary_iff, scanFileNode_binary, ?_⟩
  intro m opts p data fs hfs htrim hne hinc hexc haf hbin
  have hclean : cleanRoots [p] = [p] := by
    simp [cleanRoots, htrim, hne]
  have hstep := scanFileNode_binary m (normalizeOptions opts) p data [] emptyResult
    (List.not_mem_nil p)
    (by rw [normalizeOptions_Include]; exact hinc)
    (by rw [normalizeOptions_Exclude]; exact hexc)
    (by rw [normalizeOptions_AllowFilePatterns]; exact haf)
    hbin
  simp only [ScanGo, hclean, scanRoots, hfs, hstep]
  rfl

/-- Witness for C5_binary_skip on a NUL-leading file. -/
theorem C5_witness :
    ScanGo matcherNone ["b.bin"] fsBin defaultOptions
      = (⟨[], [], [⟨"b.bin", "binary file"⟩], ⟨0, 1, 0⟩⟩, none) :=
  C5_binary_skip.2.2 matcherNone defaultOptions "b.bin" [0, 1] fsBin rfl (by decide) (by decide)
    (by decide) (by decide) (by decide) (by decide)

theorem scanFileNode_fresh (m : Matcher) (opts : Options) (p : String)
    (c : List Nat) (res : Result) :
    ∃ res2, scanFileNode m opts p (some c) ([], res) = .ok ([p], res2)
      ∧ res2.ScannedFiles.count p ≤ res.ScannedFiles.count p + 1 := by
  simp only [scanFileNode]
  rw [if_neg (List.not_mem_nil p)]
  split_ifs <;> refine ⟨_, rfl, ?_⟩ <;> simp

theorem scanFileNode_visited (m : Matcher) (opts : Options) (p : String)
    (c : Option (List Nat)) (visited : List String) (res : Result)
    (hmem : p ∈ visited) :
    scanFileNode m opts p c (visited, res) = .ok (visited, res) := by
  simp only [scanFileNode]
  rw [if_pos hmem]

/-- C8 (amended): scanning the same existing regular file passed twice
equals scanning it once — the canonical path is processed at most once per
invocation — and it appears at most once in scannedFiles. -/
theorem C8_amended :
    (∀ (m : Matcher) (p : String) (fs : String → Option FNode) (opts : Options)
       (c : List Nat),
       fs p = some (.file c) → trimSpace p = p → p ≠ "" →
       ScanGo m [p, p] fs opts = ScanGo m [p] fs opts)
    ∧ (∀ (m : Matcher) (p : String) (fs : String → Option FNode) (opts : Options)
       (c : List Nat),
       fs p = some (.file c) → trimSpace p = p → p ≠ "" →
       (ScanGo m [p, p] fs opts).1.ScannedFiles.count p ≤ 1) := by
  have hmain : ∀ (m : Matcher) (p : String) (fs : String → Option FNode) (opts : Options)
      (c : List Nat),
      fs p = some (.file c) → trimSpace p = p → p ≠ "" →
      ∃ res2, scanRoots m (normalizeOptions opts) fs (cleanRoots [p, p]) ([], emptyResult)
            = .ok ([p], res2)
        ∧ scanRoots m (normalizeOptions opts) fs (cleanRoots [p]) ([], emptyResult)
            = .ok ([p], res2)
        ∧ res2.ScannedFiles.count p ≤ 1 := by
    intro m p fs opts c hfs htrim hne
    have hclean2 : cleanRoots [p, p] = [p, p] := by simp [cleanRoots, htrim, hne]
    have hclean1 : cleanRoots [p] = [p] := by simp [cleanRoots, htrim, hne]
    obtain ⟨res2, hstep, hcount⟩ :=
      scanFileNode_fresh m (normalizeOptions opts) p c emptyResult
    refine ⟨res2, ?_, ?_, ?_⟩
    · rw [hclean2]
      simp only [scanRoots, hfs, hstep]
      rw [scanFileNode_visited m (normalizeOptions opts) p (some c) [p] res2
        (List.mem_cons_self p [])]
    · rw [hclean1]
      simp only [scanRoots, hfs, hstep]
    · simpa [emptyResult] using hcount
  constructor
  · intro m p fs opts c hfs htrim hne
    obtain ⟨res2, h2, h1, _⟩ := hmain m p fs opts c hfs htrim hne
    simp only [ScanGo, h2, h1]
  · intro m p fs opts c hfs htrim hne
    obtain ⟨res2, h2, h1, hcnt⟩ := hmain m p fs opts c hfs htrim hne
    simp only [ScanGo, h2]
    have hperm : (sortStrings res2.ScannedFiles).Perm res2.ScannedFiles :=
      List.perm_insertionSort stringLE res2.ScannedFiles
    calc (sortStrings res2.ScannedFiles).count p
        = res2.ScannedFiles.count p := hperm.count_eq p
      _ ≤ 1 := hcnt

/-- C8 counterexample: for an existing regular binary file, Scan of the
path passed twice records it zero times in scannedFiles, refuting the
claim that it appears exactly once for every Options value and content. -/
theorem C8_counterexample :
    fsBin "b.bin" = some (.file [0, 1])
    ∧ (ScanGo matcherNone ["b.bin", "b.bin"] fsBin defaultOptions).1.ScannedFiles.count
        "b.bin" = 0 := by
  exact ⟨rfl, by decide⟩

/-- Witness for C8_amended at a concrete text file. -/
theorem C8_witness :
    ScanGo matcherNone ["sample.go", "sample.go"] fsSample defaultOptions
      = ScanGo matcherNone ["sample.go"] fsSample defaultOptions
    ∧ (ScanGo matcherNone ["sample.go", "sample.go"] fsSample defaultOptions).1.ScannedFiles.count
        "sample.go" ≤ 1 :=
  ⟨C8_amended.1 matcherNone "sample.go" fsSample defaultOptions sampleGoContent rfl (by decide) (by decide),
   C8_amended.2 matcherNone "sample.go" fsSample defaultOptions sampleGoContent rfl (by decide) (by decide)⟩

theorem scanRoots_missing_error (m : Matcher) (opts : Options)
    (fs : String → Option FNode) :
    ∀ (roots : List String) (st : List String × Result),
      (∃ p ∈ roots, fs p = none) →
      ∃ e, scanRoots m opts fs roots st = .error e := by
  intro roots
  induction roots with
  | nil => intro st h; simp at h
  | cons q qs ih =>
    intro st hex
    obtain ⟨p, hp, hnone⟩ := hex
    rcases List.mem_cons.mp hp with hpq | hpqs
    · subst hpq
      refine ⟨"stat " ++ p, ?_⟩
      simp only [scanRoots, hnone]
    · cases hq : fs q with
      | none =>
        refine ⟨"stat " ++ q, ?_⟩
        simp only [scanRoots, hq]
      | some node =>
        simp only [scanRoots, hq]
        cases node with
        | file c =>
          cases hstep : scanFileNode m opts q (some c) st with
          | error e => simp only [hstep]; exact ⟨e, rfl⟩
          | ok st1 => simp only [hstep]; exact ih st1 ⟨p, hpqs, hnone⟩
        | unreadableFile =>
          cases hstep : scanFileNode m opts q none st with
          | error e => simp only [hstep]; exact ⟨e, rfl⟩
          | ok st1 => simp only [hstep]; exact ih st1 ⟨p, hpqs, hnone⟩
        | dir es =>
          cases hstep : walkNode m opts q (.dir es) st with
          | error e => simp only [hstep]; exact ⟨e, rfl⟩
          | ok st1 => simp only [hstep]; exact ih st1 ⟨p, hpqs, hnone⟩
        | unreadableDir =>
          cases hstep : walkNode m opts q .unreadableDir st with
          | error e => simp only [hstep]; exact ⟨e, rfl⟩
          | ok st1 => simp only [hstep]; exact ih st1 ⟨p, hpqs, hnone⟩

/-- C9: errors abort the scan with an empty Result: any errored Scan
returns the zero Result; a missing root path always produces an error; an
unreadable file that passed filtering aborts with a read error; an
unreadable, non-excluded directory aborts with a walk error. -/
theorem C9_fail_fast :
    (∀ (m : Matcher) (roots : List String) (fs : String → Option FNode) (opts : Options),
       (ScanGo m roots fs opts).2 ≠ none → (ScanGo m roots fs opts).1 = emptyResult)
    ∧ (∀ (m : Matcher) (roots : List String) (fs : String → Option FNode) (opts : Options),
       (∃ p ∈ cleanRoots roots, fs p = none) → (ScanGo m roots fs opts).2 ≠ none)
    ∧ (∀ (m : Matcher) (fs : String → Option FNode) (opts : Options) (p : String),
       trimSpace p = p → p ≠ "" → fs p = some .unreadableFile →
       isIncluded m p opts.Include = true →
       isExcluded m p opts.Exclude = false →
       isAllowedFile m p opts.AllowFilePatterns = false →
       ScanGo m [p] fs opts = (emptyResult, some ("read " ++ p)))
    ∧ (∀ (m : Matcher) (fs : String → Option FNode) (opts : Options) (p : String),
       trimSpace p = p → p ≠ "" → fs p = some .unreadableDir →
       isExcluded m p opts.Exclude = false →
       ScanGo m [p] fs opts = (emptyResult, some ("walk " ++ p))) := by
  refine ⟨?_, ?_, ?_, ?_⟩
  · intro m roots fs opts h
    simp only [ScanGo] at h ⊢
    cases hsr : scanRoots m (normalizeOptions opts) fs (cleanRoots roots) ([], emptyResult) with
    | error e => rfl
    | ok st => rw [hsr] at h; simp at h
  · intro m roots fs opts hex
    obtain ⟨e, he⟩ := scanRoots_missing_error m (normalizeOptions opts) fs (cleanRoots roots)
      ([], emptyResult) hex
    simp only [ScanGo, he]
    simp
  · intro m fs opts p htrim hne hfs hinc hexc haf
    have hclean : cleanRoots [p] = [p] := by simp [cleanRoots, htrim, hne]
    have hstep : scanFileNode m (normalizeOptions opts) p none ([], emptyResult)
        = .error ("read " ++ p) := by
      simp only [scanFileNode]
      rw [if_neg (List.not_mem_nil p),
        if_neg (by rw [normalizeOptions_Include]; simp [hinc]),
        if_neg (by rw [normalizeOptions_Exclude]; simp [hexc]),
        if_neg (by rw [normalizeOptions_AllowFilePatterns]; simp [haf])]
    simp only [ScanGo, hclean, scanRoots, hfs, hstep]
  · intro m fs opts p htrim hne hfs hexc
    have hclean : cleanRoots [p] = [p] := by simp [cleanRoots, htrim, hne]
    have hstep : walkNode m (normalizeOptions opts) p .unreadableDir ([], emptyResult)
        = .error ("walk " ++ p) := by
      simp only [walkNode]
      rw [if_neg]
      rintro ⟨-, hx⟩
      rw [normalizeOptions_Exclude] at hx
      rw [hexc] at hx
      exact Bool.noConfusion hx
    simp only [ScanGo, hclean, scanRoots, hfs, hstep]

/-- Witness for C9_fail_fast at concrete filesystems. -/
theorem C9_witness :
    ((ScanGo matcherNone ["nope"] fsNone defaultOptions).2 ≠ none →
      (ScanGo matcherNone ["nope"] fsNone defaultOptions).1 = emptyResult)
    ∧ (ScanGo matcherNone ["nope"] fsNone defaultOptions).2 ≠ none
    ∧ ScanGo matcherNone ["secret.go"] fsUnreadable defaultOptions
        = (emptyResult, some ("read " ++ "secret.go"))
    ∧ ScanGo matcherNone ["blocked"] fsBlockedDir defaultOptions
        = (emptyResult, some ("walk " ++ "blocked")) :=
  ⟨C9_fail_fast.1 matcherNone ["nope"] fsNone defaultOptions,
   C9_fail_fast.2.1 matcherNone ["nope"] fsNone defaultOptions
     ⟨"nope", by decide, rfl⟩,
   C9_fail_fast.2.2.1 matcherNone fsUnreadable defaultOptions "secret.go" (by decide) (by decide)
     rfl (by decide) (by decide) (by decide),
   C9_fail_fast.2.2.2 matcherNone fsBlockedDir defaultOptions "blocked" (by decide) (by decide)
     rfl (by decide)⟩

end Englint
